import Mathlib

/-!
# iptables-differ: parser and differ

A shallow embedding of `main.go` (functions `loadRules`, `compareRules`,
`containsRule`) together with the properties of the two-phase algorithm:
parsing an iptables-save dump into a table-indexed structure, and the
per-table membership difference.

Conventions of the embedding.

* A Go `string` is a Lean `String`; the functions of package `strings` that
  the program calls are defined on the character list.
* A Go `map[string][]string` is an association list read by first match
  (`RuleSet`).  `RuleSet.lookup` is the two-valued index expression
  `v, ok := m[k]`, `RuleSet.index` the one-valued `m[k]` (`nil` when absent),
  `RuleSet.assign` the statement `m[k] = v`.
* The colour printers are the event kinds: `cyan` prints a table header,
  `yellow` a table-level change, `red` a removed rule, `green` an added rule.
  The output stream is the list of events in the order printed.
* `range` over a Go map visits the keys in an unspecified order.  The order
  in which `compareRules` visits `allTables` is therefore an argument, and
  `IsRangeOrder` says that it enumerates the key set once each.
* `loadRulesFile` is the whole of `loadRules(filename)`: `os.Open`, the
  scanner with its buffer limit, the loop, and the pair of results.  The
  properties of the parser are stated on it.
* `loadRules` is the loop of that function alone, over the lines that
  `scanner.Scan` has delivered (`scanner.Text()`), in file order.
-/

namespace IptablesDiffer

/-! ## Package `strings` -/

namespace strings

/-- Go `unicode.IsSpace`: the Unicode White_Space property. -/
def isSpace (c : Char) : Bool :=
  let n := c.toNat
  decide ((0x09 ≤ n ∧ n ≤ 0x0d) ∨ n = 0x20 ∨ n = 0x85 ∨ n = 0xA0 ∨ n = 0x1680 ∨
    (0x2000 ≤ n ∧ n ≤ 0x200a) ∨ n = 0x2028 ∨ n = 0x2029 ∨ n = 0x202f ∨
    n = 0x205f ∨ n = 0x3000)

/-- Go `strings.TrimSpace` on a character list: leading and trailing white
space removed. -/
def trimChars (cs : List Char) : List Char :=
  ((cs.dropWhile isSpace).reverse.dropWhile isSpace).reverse

/-- Go `strings.TrimSpace`. -/
def TrimSpace (s : String) : String :=
  String.mk (trimChars s.data)

/-- Go `strings.HasPrefix s p`. -/
def HasPrefix (s p : String) : Bool :=
  p.data.isPrefixOf s.data

end strings

open strings

/-! ## The map type -/

/-- Go `map[string][]string`, as an association list read by first match. -/
abbrev RuleSet := List (String × List String)

namespace RuleSet

/-- The index expression `v, ok := m[k]`: `some v` when `ok`. -/
def lookup : RuleSet → String → Option (List String)
  | [], _ => none
  | (k', v) :: m, k => if k' = k then some v else lookup m k

/-- The index expression `m[k]`: the zero value `nil` when `k` is absent. -/
def index (m : RuleSet) (k : String) : List String :=
  (lookup m k).getD []

/-- The test `_, exists := m[k]`. -/
def hasKey (m : RuleSet) (k : String) : Bool :=
  (lookup m k).isSome

/-- The assignment `m[k] = v`: overwrites the entry of `k`, or adds one. -/
def assign : RuleSet → String → List String → RuleSet
  | [], k, v => [(k, v)]
  | (k', v') :: m, k, v => if k' = k then (k, v) :: m else (k', v') :: assign m k v

/-- The keys of the map. -/
def keys (m : RuleSet) : List String :=
  m.map Prod.fst

end RuleSet

/-! ## `loadRules` -/

/-- The variables of `loadRules` that the loop updates. -/
structure LoadState where
  rules : RuleSet
  currentChain : String
deriving DecidableEq, Repr

/-- One iteration of the `for scanner.Scan()` loop on the scanned text `raw`. -/
def loadStep (st : LoadState) (raw : String) : LoadState :=
  let line := TrimSpace raw
  if line = "" ∨ HasPrefix line "#" = true then
    st
  else if HasPrefix line "*" = true then
    { rules := st.rules.assign line [], currentChain := line }
  else if HasPrefix line "COMMIT" = true then
    { st with currentChain := "" }
  else if st.currentChain ≠ "" then
    { st with rules := st.rules.assign st.currentChain (st.rules.index st.currentChain ++ [line]) }
  else
    st

/-- The state of `loadRules` after the loop has consumed `lines`, starting
from the empty map and `currentChain == ""`. -/
def loadLoop (lines : List String) : LoadState :=
  lines.foldl loadStep { rules := [], currentChain := "" }

/-- The map that the loop of `loadRules` builds from `lines`, the texts that
`scanner.Scan` has delivered.  This is the loop alone: the scanner, which stops
at a line that does not fit its buffer, and the error result are part of
`loadRulesFile`, the whole function. -/
def loadRules (lines : List String) : RuleSet :=
  (loadLoop lines).rules

/-! ## `compareRules` -/

/-- `containsRule`: linear scan with `==` on strings. -/
def containsRule : List String → String → Bool
  | [], _ => false
  | r :: rules, rule => if r = rule then true else containsRule rules rule

/-- One printed line of the report, tagged by its kind. -/
inductive Event where
  /-- The line `cyan("\nComparing table %s:\n", table)`. -/
  | header (table : String)
  /-- The line `yellow("! Table %s has been added\n", table)`. -/
  | tableAdded (table : String)
  /-- The line `yellow("! Table %s has been removed\n", table)`. -/
  | tableRemoved (table : String)
  /-- The line `red("- %s\n", rule)`. -/
  | ruleRemoved (rule : String)
  /-- The line `green("+ %s\n", rule)`. -/
  | ruleAdded (rule : String)
deriving DecidableEq, Repr

/-- The loop `for _, rule := range beforeRules` (find removed rules). -/
def removedLoop (afterRules : List String) : List String → List Event
  | [] => []
  | rule :: rest =>
    if containsRule afterRules rule = false then
      Event.ruleRemoved rule :: removedLoop afterRules rest
    else removedLoop afterRules rest

/-- The loop `for _, rule := range afterRules` (find added rules). -/
def addedLoop (beforeRules : List String) : List String → List Event
  | [] => []
  | rule :: rest =>
    if containsRule beforeRules rule = false then
      Event.ruleAdded rule :: addedLoop beforeRules rest
    else addedLoop beforeRules rest

/-- What one iteration of `for table := range allTables` prints after the
header. -/
def tableBody (before after : RuleSet) (table : String) : List Event :=
  let beforeRules := before.index table
  let afterRules := after.index table
  if before.hasKey table = false then
    [Event.tableAdded table]
  else if after.hasKey table = false then
    [Event.tableRemoved table]
  else
    removedLoop afterRules beforeRules ++ addedLoop beforeRules afterRules

/-- One iteration of `for table := range allTables`. -/
def compareTable (before after : RuleSet) (table : String) : List Event :=
  Event.header table :: tableBody before after table

/-- The key set `allTables`, each table once. -/
def allTables (before after : RuleSet) : List String :=
  (before.keys ++ after.keys).dedup

/-- The list `order` is an order in which `range allTables` can visit the tables. -/
def IsRangeOrder (before after : RuleSet) (order : List String) : Prop :=
  order.Perm (allTables before after)

instance (before after : RuleSet) (order : List String) :
    Decidable (IsRangeOrder before after order) := by
  unfold IsRangeOrder; infer_instance

/-- The report printed by `compareRules(before, after)` when the tables are
visited in the order `order`. -/
def compareRules : List String → RuleSet → RuleSet → List Event
  | [], _, _ => []
  | table :: rest, before, after =>
    compareTable before after table ++ compareRules rest before after

/-! ## Reading a report -/

/-- Header test. -/
def Event.isHeader : Event → Bool
  | Event.header _ => true
  | _ => false

/-- The events printed for `table`: those that follow its header, up to the
next header. -/
def eventsFor : List Event → String → List Event
  | [], _ => []
  | e :: rest, table =>
    if e = Event.header table then rest.takeWhile (fun x => !x.isHeader)
    else eventsFor rest table

/-- The rule text of a removed-rule event. -/
def Event.removedText : Event → Option String
  | Event.ruleRemoved r => some r
  | _ => none

/-- The rule text of an added-rule event. -/
def Event.addedText : Event → Option String
  | Event.ruleAdded r => some r
  | _ => none

/-- The rule texts of the removed-rule events, in order. -/
def removedRules (es : List Event) : List String :=
  es.filterMap Event.removedText

/-- The rule texts of the added-rule events, in order. -/
def addedRules (es : List Event) : List String :=
  es.filterMap Event.addedText

/-- The rule-level events of a table in closed form: the rules of `beforeRules`
that are not members of `afterRules`, as removed, then the rules of
`afterRules` that are not members of `beforeRules`, as added. -/
def ruleDiff (beforeRules afterRules : List String) : List Event :=
  (beforeRules.filter (fun r => decide (r ∉ afterRules))).map Event.ruleRemoved ++
    (afterRules.filter (fun r => decide (r ∉ beforeRules))).map Event.ruleAdded

/-! ## Reading an input file

The vocabulary in which the behaviour of `loadRules` is stated: the kinds of
line, the table that is open after a sequence of lines, and the rule lines of
a section. -/

/-- The loop resumed in state `st` on the lines `lines`. -/
def loadFrom (st : LoadState) (lines : List String) : LoadState :=
  lines.foldl loadStep st

/-- A line that is empty after trimming or then starts with `#`. -/
def IsSkippedLine (raw : String) : Prop :=
  TrimSpace raw = "" ∨ HasPrefix (TrimSpace raw) "#" = true

/-- A table line: after trimming it starts with `*`. -/
def IsTableLine (raw : String) : Prop :=
  HasPrefix (TrimSpace raw) "*" = true

/-- A line that after trimming starts with `COMMIT`. -/
def IsCommitLine (raw : String) : Prop :=
  HasPrefix (TrimSpace raw) "COMMIT" = true

/-- A rule line: after trimming it is non-empty and starts with none of `#`,
`*`, `COMMIT`. -/
def IsRuleLine (raw : String) : Prop :=
  TrimSpace raw ≠ "" ∧ HasPrefix (TrimSpace raw) "#" = false ∧
    HasPrefix (TrimSpace raw) "*" = false ∧ HasPrefix (TrimSpace raw) "COMMIT" = false

instance (raw : String) : Decidable (IsSkippedLine raw) := by
  unfold IsSkippedLine; infer_instance

instance (raw : String) : Decidable (IsTableLine raw) := by
  unfold IsTableLine; infer_instance

instance (raw : String) : Decidable (IsCommitLine raw) := by
  unfold IsCommitLine; infer_instance

instance (raw : String) : Decidable (IsRuleLine raw) := by
  unfold IsRuleLine; infer_instance

/-- The table left open by `lines` when `cur` was open before them: the name
of the last table line, unless a `COMMIT` line follows it. -/
def openTableFrom (cur : Option String) (lines : List String) : Option String :=
  lines.foldl (fun o raw =>
    if IsTableLine raw then some (TrimSpace raw)
    else if IsCommitLine raw then none
    else o) cur

/-- The most recently opened table that no `COMMIT` line has closed yet. -/
def openTable (lines : List String) : Option String :=
  openTableFrom none lines

/-- The rule lines of a section, trimmed and in file order: the rule lines
that precede the first table line or `COMMIT` line of `lines`. -/
def sectionRules : List String → List String
  | [] => []
  | raw :: rest =>
    if IsTableLine raw ∨ IsCommitLine raw then []
    else if IsRuleLine raw then TrimSpace raw :: sectionRules rest
    else sectionRules rest

/-- The lines `lines` without ignorable text: every line trimmed, and the
lines that are then empty or start with `#` deleted. -/
def stripIgnorable (lines : List String) : List String :=
  (lines.map TrimSpace).filter (fun l => !(decide (l = "") || HasPrefix l "#"))

/-! ## Opening and scanning the file

`loadRules(filename)` opens the file, scans it with a `bufio.Scanner` (split
function `ScanLines`, buffer of the default size) and returns the map together
with `scanner.Err()`.  A file is described by its lines: the pieces of its
content between line feeds, a trailing carriage return included. -/

/-- Go `bufio.MaxScanTokenSize`: the largest size the scanner's buffer grows
to when `Buffer` is not called. -/
def MaxScanTokenSize : Nat := 64 * 1024

/-- The error value returned by `loadRules`. -/
inductive LoadError where
  /-- The error of `os.Open`. -/
  | openFailed
  /-- An error of `Read` other than `io.EOF`, as reported by `scanner.Err()`. -/
  | readFailed
  /-- The error `bufio.ErrTooLong`, as reported by `scanner.Err()`. -/
  | tooLong
deriving DecidableEq, Repr

/-- The file named by `filename`, as `loadRules` meets it. -/
inductive File where
  /-- The function `os.Open` fails. -/
  | missing
  /-- The file opens and is read to its end; `lines` are its lines. -/
  | readable (lines : List String)
  /-- The file opens and a `Read` fails once the bytes of `lines` are read. -/
  | failing (lines : List String)
deriving DecidableEq, Repr

/-- Go `dropCR` of `bufio.ScanLines`: a trailing carriage return removed. -/
def dropCR (s : String) : String :=
  if s.data.getLast? = some '\r' then String.mk s.data.dropLast else s

/-- The scanner over the lines of a file: the texts that the successive calls
of `scanner.Scan` deliver (`scanner.Text()`), and whether scanning stopped at a
line that does not fit the buffer.  A line of `MaxScanTokenSize` bytes or more
fills the buffer before its line feed is seen, and `Scan` gives up there. -/
def scanLines : List String → List String × Bool
  | [] => ([], false)
  | l :: rest =>
    if MaxScanTokenSize ≤ l.utf8ByteSize then ([], true)
    else (dropCR l :: (scanLines rest).1, (scanLines rest).2)

/-- The function `loadRules(filename)`: the pair of results, `none` for `nil`. -/
def loadRulesFile : File → Option RuleSet × Option LoadError
  | File.missing => (none, some LoadError.openFailed)
  | File.readable lines =>
    (some (loadRules (scanLines lines).1),
      if (scanLines lines).2 = true then some LoadError.tooLong else none)
  | File.failing lines =>
    (some (loadRules (scanLines lines).1),
      if (scanLines lines).2 = true then some LoadError.tooLong else some LoadError.readFailed)

/-- A line of `MaxScanTokenSize` letters `a`. -/
def longLine : String :=
  String.mk (List.replicate MaxScanTokenSize 'a')

/-- A blank line of `MaxScanTokenSize` spaces. -/
def blankLine : String :=
  String.mk (List.replicate MaxScanTokenSize ' ')

/-- The report rebuilt table by table: for each table of `tables` its header
followed by the events that `eventsFor` reads for it. -/
def blocks (report : List Event) : List String → List Event
  | [] => []
  | t :: rest => Event.header t :: (eventsFor report t ++ blocks report rest)

/-! ## Sample inputs -/

/-- A sample `before` map: tables `*filter` and `*nat`. -/
def exBefore : RuleSet :=
  [("*filter", ["-A INPUT -s 10.0.0.1 -j DROP", "-A INPUT -j ACCEPT",
      "-A INPUT -s 10.0.0.1 -j DROP", "-A INPUT -j ACCEPT"]),
   ("*nat", ["-A PREROUTING -j DNAT"])]

/-- A sample `after` map: tables `*filter` and `*mangle`. -/
def exAfter : RuleSet :=
  [("*filter", ["-A FORWARD -j ACCEPT", "-A INPUT -j ACCEPT"]),
   ("*mangle", ["-A PREROUTING -j DNAT"])]

/-- The lines of the `before` file of the end-to-end scenario. -/
def scenarioBefore : List String :=
  ["*filter", "-A INPUT -j DROP", "COMMIT"]

/-- The lines of the `after` file of the end-to-end scenario. -/
def scenarioAfter : List String :=
  ["*filter", "-A INPUT -j DROP", "-A INPUT -j ACCEPT", "COMMIT"]

/-! ## Lemmas on the map type -/

theorem RuleSet.hasKey_iff_mem_keys (m : RuleSet) (k : String) :
    m.hasKey k = true ↔ k ∈ m.keys := by
  induction m with
  | nil => simp [RuleSet.hasKey, RuleSet.lookup, RuleSet.keys]
  | cons p m ih =>
    obtain ⟨k', v⟩ := p
    by_cases h : k' = k
    · simp [RuleSet.hasKey, RuleSet.lookup, RuleSet.keys, h]
    · have h' : ¬ k = k' := fun e => h e.symm
      simpa [RuleSet.hasKey, RuleSet.lookup, RuleSet.keys, h, h'] using ih

theorem RuleSet.hasKey_eq_false_iff (m : RuleSet) (k : String) :
    m.hasKey k = false ↔ m.lookup k = none := by
  simp [RuleSet.hasKey]

theorem RuleSet.hasKey_eq_true_iff (m : RuleSet) (k : String) :
    m.hasKey k = true ↔ ∃ v, m.lookup k = some v := by
  simp [RuleSet.hasKey, Option.isSome_iff_exists]

theorem RuleSet.lookup_assign_same (m : RuleSet) (k : String) (v : List String) :
    (m.assign k v).lookup k = some v := by
  induction m with
  | nil => simp [RuleSet.assign, RuleSet.lookup]
  | cons p m ih =>
    obtain ⟨k', v'⟩ := p
    by_cases h : k' = k
    · simp [RuleSet.assign, RuleSet.lookup, h]
    · simp [RuleSet.assign, RuleSet.lookup, h, ih]

theorem RuleSet.lookup_assign_other (m : RuleSet) (k j : String) (v : List String)
    (hj : j ≠ k) : (m.assign k v).lookup j = m.lookup j := by
  induction m with
  | nil =>
    have : ¬ k = j := fun e => hj e.symm
    simp [RuleSet.assign, RuleSet.lookup, this]
  | cons p m ih =>
    obtain ⟨k', v'⟩ := p
    by_cases h : k' = k
    · subst h
      have : ¬ k' = j := fun e => hj e.symm
      simp [RuleSet.assign, RuleSet.lookup, this]
    · by_cases h2 : k' = j
      · subst h2
        simp [RuleSet.assign, RuleSet.lookup, h]
      · simp [RuleSet.assign, RuleSet.lookup, h, h2, ih]

theorem RuleSet.index_assign_same (m : RuleSet) (k : String) (v : List String) :
    (m.assign k v).index k = v := by
  simp [RuleSet.index, RuleSet.lookup_assign_same]

theorem RuleSet.hasKey_assign (m : RuleSet) (k j : String) (v : List String) :
    (m.assign k v).hasKey j = (decide (j = k) || m.hasKey j) := by
  by_cases h : j = k
  · subst h; simp [RuleSet.hasKey, RuleSet.lookup_assign_same]
  · simp [RuleSet.hasKey, RuleSet.lookup_assign_other m k j v h, h]

/-! ## Lemmas on the differ -/

theorem containsRule_iff (rules : List String) (rule : String) :
    containsRule rules rule = true ↔ rule ∈ rules := by
  induction rules with
  | nil => simp [containsRule]
  | cons r rules ih =>
    by_cases h : r = rule
    · simp [containsRule, h]
    · have h' : ¬ rule = r := fun e => h e.symm
      simp [containsRule, h, h', ih]

theorem containsRule_eq_false_iff (rules : List String) (rule : String) :
    containsRule rules rule = false ↔ rule ∉ rules := by
  rw [← containsRule_iff]; simp

theorem removedLoop_eq (afterRules beforeRules : List String) :
    removedLoop afterRules beforeRules
      = (beforeRules.filter (fun r => decide (r ∉ afterRules))).map Event.ruleRemoved := by
  induction beforeRules with
  | nil => rfl
  | cons r rest ih =>
    by_cases h : r ∈ afterRules
    · have hc : containsRule afterRules r = true := (containsRule_iff _ _).2 h
      simp [removedLoop, hc, h, ih]
    · have hc : containsRule afterRules r = false := (containsRule_eq_false_iff _ _).2 h
      simp [removedLoop, hc, h, ih]

theorem addedLoop_eq (beforeRules afterRules : List String) :
    addedLoop beforeRules afterRules
      = (afterRules.filter (fun r => decide (r ∉ beforeRules))).map Event.ruleAdded := by
  induction afterRules with
  | nil => rfl
  | cons r rest ih =>
    by_cases h : r ∈ beforeRules
    · have hc : containsRule beforeRules r = true := (containsRule_iff _ _).2 h
      simp [addedLoop, hc, h, ih]
    · have hc : containsRule beforeRules r = false := (containsRule_eq_false_iff _ _).2 h
      simp [addedLoop, hc, h, ih]

theorem removedRules_append (xs ys : List Event) :
    removedRules (xs ++ ys) = removedRules xs ++ removedRules ys := by
  simp [removedRules, List.filterMap_append]

theorem addedRules_append (xs ys : List Event) :
    addedRules (xs ++ ys) = addedRules xs ++ addedRules ys := by
  simp [addedRules, List.filterMap_append]

theorem removedRules_map_removed (rs : List String) :
    removedRules (rs.map Event.ruleRemoved) = rs := by
  induction rs with
  | nil => rfl
  | cons r rs ih =>
    simp only [removedRules, List.map_cons, List.filterMap_cons, Event.removedText] at ih ⊢
    rw [ih]

theorem removedRules_map_added (rs : List String) :
    removedRules (rs.map Event.ruleAdded) = [] := by
  induction rs with
  | nil => rfl
  | cons r rs ih =>
    simp only [removedRules, List.map_cons, List.filterMap_cons, Event.removedText] at ih ⊢
    rw [ih]

theorem addedRules_map_added (rs : List String) :
    addedRules (rs.map Event.ruleAdded) = rs := by
  induction rs with
  | nil => rfl
  | cons r rs ih =>
    simp only [addedRules, List.map_cons, List.filterMap_cons, Event.addedText] at ih ⊢
    rw [ih]

theorem addedRules_map_removed (rs : List String) :
    addedRules (rs.map Event.ruleRemoved) = [] := by
  induction rs with
  | nil => rfl
  | cons r rs ih =>
    simp only [addedRules, List.map_cons, List.filterMap_cons, Event.addedText] at ih ⊢
    rw [ih]

theorem removedRules_ruleDiff (bs cs : List String) :
    removedRules (ruleDiff bs cs) = bs.filter (fun r => decide (r ∉ cs)) := by
  simp [ruleDiff, removedRules_append, removedRules_map_removed, removedRules_map_added]

theorem addedRules_ruleDiff (bs cs : List String) :
    addedRules (ruleDiff bs cs) = cs.filter (fun r => decide (r ∉ bs)) := by
  simp [ruleDiff, addedRules_append, addedRules_map_removed, addedRules_map_added]

/-- The three cases of a table body. -/
theorem tableBody_cases (before after : RuleSet) (table : String) :
    tableBody before after table =
      if before.hasKey table = false then [Event.tableAdded table]
      else if after.hasKey table = false then [Event.tableRemoved table]
      else ruleDiff (before.index table) (after.index table) := by
  simp only [tableBody, removedLoop_eq, addedLoop_eq, ruleDiff]

theorem tableBody_both (before after : RuleSet) (table : String)
    (hb : before.hasKey table = true) (ha : after.hasKey table = true) :
    tableBody before after table = ruleDiff (before.index table) (after.index table) := by
  rw [tableBody_cases]; simp [hb, ha]

theorem tableBody_onlyAfter (before after : RuleSet) (table : String)
    (hb : before.hasKey table = false) :
    tableBody before after table = [Event.tableAdded table] := by
  rw [tableBody_cases]; simp [hb]

theorem tableBody_onlyBefore (before after : RuleSet) (table : String)
    (hb : before.hasKey table = true) (ha : after.hasKey table = false) :
    tableBody before after table = [Event.tableRemoved table] := by
  rw [tableBody_cases]; simp [hb, ha]

theorem ruleDiff_no_header (bs cs : List String) :
    ∀ e ∈ ruleDiff bs cs, e.isHeader = false := by
  intro e he
  simp only [ruleDiff, List.mem_append, List.mem_map] at he
  rcases he with ⟨r, _, rfl⟩ | ⟨r, _, rfl⟩ <;> rfl

theorem tableBody_no_header (before after : RuleSet) (table : String) :
    ∀ e ∈ tableBody before after table, e.isHeader = false := by
  intro e he
  rw [tableBody_cases] at he
  split at he
  · simp at he; subst he; rfl
  · split at he
    · simp at he; subst he; rfl
    · exact ruleDiff_no_header _ _ e he

theorem eventsFor_append_of_no_header (xs ys : List Event) (table : String)
    (h : ∀ e ∈ xs, e.isHeader = false) :
    eventsFor (xs ++ ys) table = eventsFor ys table := by
  induction xs with
  | nil => rfl
  | cons x xs ih =>
    have hx : x.isHeader = false := h x (List.mem_cons_self _ _)
    have hne : x ≠ Event.header table := by
      intro e; subst e; simp [Event.isHeader] at hx
    simp only [List.cons_append, eventsFor, hne, if_false]
    exact ih (fun e he => h e (List.mem_cons_of_mem _ he))

theorem compareRules_cons (t : String) (rest : List String) (before after : RuleSet) :
    compareRules (t :: rest) before after
      = Event.header t :: (tableBody before after t ++ compareRules rest before after) := rfl

theorem compareRules_head_isHeader (order : List String) (before after : RuleSet) :
    ∀ e, (compareRules order before after).head? = some e → e.isHeader = true := by
  intro e he
  cases order with
  | nil => simp [compareRules] at he
  | cons t rest =>
    rw [compareRules_cons] at he
    simp at he
    subst he; rfl

theorem takeWhile_body (body rest : List Event)
    (hbody : ∀ e ∈ body, e.isHeader = false)
    (hrest : ∀ e, rest.head? = some e → e.isHeader = true) :
    (body ++ rest).takeWhile (fun x => !x.isHeader) = body := by
  induction body with
  | nil =>
    cases rest with
    | nil => rfl
    | cons e rest =>
      have := hrest e rfl
      simp [List.takeWhile, this]
  | cons b body ih =>
    have hb : b.isHeader = false := hbody b (List.mem_cons_self _ _)
    have ih' := ih (fun e he => hbody e (List.mem_cons_of_mem _ he))
    simp [List.takeWhile_cons, hb, ih']

/-- The events printed for a visited table are the body of its iteration. -/
theorem eventsFor_compareRules (order : List String) (before after : RuleSet)
    (table : String) (h : table ∈ order) :
    eventsFor (compareRules order before after) table = tableBody before after table := by
  induction order with
  | nil => cases h
  | cons t rest ih =>
    by_cases ht : t = table
    · subst ht
      rw [compareRules_cons]
      simp only [eventsFor, if_true]
      exact takeWhile_body _ _ (tableBody_no_header _ _ _)
        (compareRules_head_isHeader rest before after)
    · have hne : Event.header t ≠ Event.header table := by
        intro e; injection e with e'; exact ht e'
      have hmem : table ∈ rest := by
        rcases List.mem_cons.1 h with e | hm
        · exact absurd e.symm ht
        · exact hm
      rw [compareRules_cons]
      simp only [eventsFor, hne, if_false]
      rw [eventsFor_append_of_no_header _ _ _ (tableBody_no_header _ _ _)]
      exact ih hmem

theorem mem_allTables (before after : RuleSet) (table : String) :
    table ∈ allTables before after ↔ before.hasKey table = true ∨ after.hasKey table = true := by
  simp [allTables, RuleSet.hasKey_iff_mem_keys]

theorem IsRangeOrder.mem_iff {before after : RuleSet} {order : List String}
    (h : IsRangeOrder before after order) (table : String) :
    table ∈ order ↔ before.hasKey table = true ∨ after.hasKey table = true := by
  rw [← mem_allTables]; exact List.Perm.mem_iff h

theorem IsRangeOrder.nodup {before after : RuleSet} {order : List String}
    (h : IsRangeOrder before after order) : order.Nodup :=
  (List.Perm.nodup_iff h).2 (List.nodup_dedup _)

/-- The events printed for a table of the key set are the body of its iteration. -/
theorem eventsFor_of_rangeOrder {before after : RuleSet} {order : List String}
    (hord : IsRangeOrder before after order) (table : String)
    (hk : before.hasKey table = true ∨ after.hasKey table = true) :
    eventsFor (compareRules order before after) table = tableBody before after table :=
  eventsFor_compareRules order before after table ((hord.mem_iff table).2 hk)

theorem ruleDiff_only_rules (bs cs : List String) (t : String) :
    Event.tableAdded t ∉ ruleDiff bs cs ∧ Event.tableRemoved t ∉ ruleDiff bs cs := by
  constructor <;>
  · intro he
    simp only [ruleDiff, List.mem_append, List.mem_map] at he
    rcases he with ⟨r, _, h⟩ | ⟨r, _, h⟩ <;> cases h

theorem count_tableAdded_tableBody (before after : RuleSet) (t T : String) :
    (tableBody before after t).count (Event.tableAdded T)
      = if t = T ∧ before.hasKey t = false then 1 else 0 := by
  rw [tableBody_cases]
  by_cases hb : before.hasKey t = false
  · by_cases ht : t = T
    · subst ht; simp [hb]
    · have hne : Event.tableAdded t ≠ Event.tableAdded T := by
        intro e; injection e with e'; exact ht e'
      simp [hb, ht, List.count_cons, hne]
  · by_cases ha : after.hasKey t = false
    · simp [hb, ha, List.count_cons]
    · have hb' : before.hasKey t = true := by simpa using hb
      have ha' : after.hasKey t = true := by simpa using ha
      simp [hb', ha', List.count_eq_zero.2 (ruleDiff_only_rules _ _ T).1]

theorem count_tableRemoved_tableBody (before after : RuleSet) (t T : String) :
    (tableBody before after t).count (Event.tableRemoved T)
      = if t = T ∧ before.hasKey t = true ∧ after.hasKey t = false then 1 else 0 := by
  rw [tableBody_cases]
  by_cases hb : before.hasKey t = false
  · simp [hb, List.count_cons]
  · have hb' : before.hasKey t = true := by simpa using hb
    by_cases ha : after.hasKey t = false
    · by_cases ht : t = T
      · subst ht; simp [hb', ha]
      · have hne : Event.tableRemoved t ≠ Event.tableRemoved T := by
          intro e; injection e with e'; exact ht e'
        simp [hb', ha, ht, List.count_cons, hne]
    · have ha' : after.hasKey t = true := by simpa using ha
      simp [hb', ha', List.count_eq_zero.2 (ruleDiff_only_rules _ _ T).2]

/-- Number of table-added lines for `T` in a report. -/
theorem count_tableAdded (order : List String) (before after : RuleSet) (T : String) :
    (compareRules order before after).count (Event.tableAdded T)
      = if before.hasKey T = false then order.count T else 0 := by
  induction order with
  | nil => simp [compareRules]
  | cons t rest ih =>
    rw [compareRules_cons, List.count_cons, List.count_append, ih,
      count_tableAdded_tableBody, List.count_cons]
    by_cases ht : t = T
    · subst ht
      by_cases hb : before.hasKey t = false
      · simp [hb]; omega
      · simp [hb]
    · by_cases hb : before.hasKey T = false
      · simp [ht, hb]
      · simp [ht, hb]

/-- Number of table-removed lines for `T` in a report. -/
theorem count_tableRemoved (order : List String) (before after : RuleSet) (T : String) :
    (compareRules order before after).count (Event.tableRemoved T)
      = if before.hasKey T = true ∧ after.hasKey T = false then order.count T else 0 := by
  induction order with
  | nil => simp [compareRules]
  | cons t rest ih =>
    rw [compareRules_cons, List.count_cons, List.count_append, ih,
      count_tableRemoved_tableBody, List.count_cons]
    by_cases ht : t = T
    · subst ht
      by_cases hb : before.hasKey t = true ∧ after.hasKey t = false
      · simp [hb]; omega
      · simp [hb]
    · by_cases hb : before.hasKey T = true ∧ after.hasKey T = false
      · simp [ht, hb]
      · simp [ht, hb]

theorem IsRangeOrder.count_eq_one {before after : RuleSet} {order : List String}
    (h : IsRangeOrder before after order) (table : String)
    (hk : before.hasKey table = true ∨ after.hasKey table = true) :
    order.count table = 1 :=
  List.count_eq_one_of_mem h.nodup ((h.mem_iff table).2 hk)

theorem mem_tableAdded_iff {before after : RuleSet} {order : List String}
    (h : IsRangeOrder before after order) (t : String) :
    Event.tableAdded t ∈ compareRules order before after
      ↔ before.hasKey t = false ∧ after.hasKey t = true := by
  rw [← List.count_pos_iff, count_tableAdded]
  by_cases hb : before.hasKey t = false
  · simp only [hb, if_true, true_and, List.count_pos_iff, h.mem_iff t]
    simp [hb]
  · simp [hb]

theorem mem_tableRemoved_iff {before after : RuleSet} {order : List String}
    (h : IsRangeOrder before after order) (t : String) :
    Event.tableRemoved t ∈ compareRules order before after
      ↔ before.hasKey t = true ∧ after.hasKey t = false := by
  rw [← List.count_pos_iff, count_tableRemoved]
  by_cases hb : before.hasKey t = true ∧ after.hasKey t = false
  · simp only [hb, and_self, if_true, List.count_pos_iff, h.mem_iff t]
    simp [hb.1]
  · simp [hb]

theorem filter_not_mem_self (xs : List String) :
    xs.filter (fun r => decide (r ∉ xs)) = [] := by
  rw [List.filter_eq_nil_iff]
  intro r hr
  simpa using hr

theorem ruleDiff_self (xs : List String) : ruleDiff xs xs = [] := by
  simp [ruleDiff, filter_not_mem_self]

theorem compareRules_self_of_keys (order : List String) (X : RuleSet)
    (h : ∀ t ∈ order, X.hasKey t = true) :
    compareRules order X X = order.map Event.header := by
  induction order with
  | nil => rfl
  | cons t rest ih =>
    have ht : X.hasKey t = true := h t (List.mem_cons_self _ _)
    rw [compareRules_cons, tableBody_both X X t ht ht, ruleDiff_self,
      ih (fun u hu => h u (List.mem_cons_of_mem _ hu))]
    rfl

theorem filter_not_mem_congr (xs ys ys' : List String) (h : ∀ r, r ∈ ys' ↔ r ∈ ys) :
    xs.filter (fun r => decide (r ∉ ys')) = xs.filter (fun r => decide (r ∉ ys)) := by
  apply List.filter_congr
  intro r _
  simp [h r]

/-! ## Properties of the differ -/

/-- C1: for a table `T` that is a key of both maps, the removed-rule events
printed for `T` are the elements of `before[T]` that do not occur in
`after[T]`, one per occurrence and in the order of `before[T]`; the added-rule
events are the elements of `after[T]` that do not occur in `before[T]`, one per
occurrence and in the order of `after[T]`; membership is string equality, and
the removed-rule events come first and nothing else is printed for `T`. -/
theorem compareRules_rule_events (before after : RuleSet) (order : List String) (T : String)
    (hord : IsRangeOrder before after order)
    (hb : before.hasKey T = true) (ha : after.hasKey T = true) :
    removedRules (eventsFor (compareRules order before after) T)
        = (before.index T).filter (fun r => decide (r ∉ after.index T)) ∧
    addedRules (eventsFor (compareRules order before after) T)
        = (after.index T).filter (fun r => decide (r ∉ before.index T)) ∧
    eventsFor (compareRules order before after) T
        = ((before.index T).filter (fun r => decide (r ∉ after.index T))).map Event.ruleRemoved
          ++ ((after.index T).filter (fun r => decide (r ∉ before.index T))).map Event.ruleAdded := by
  have h : eventsFor (compareRules order before after) T
      = ruleDiff (before.index T) (after.index T) := by
    rw [eventsFor_of_rangeOrder hord T (Or.inl hb), tableBody_both before after T hb ha]
  rw [h]
  exact ⟨removedRules_ruleDiff _ _, addedRules_ruleDiff _ _, rfl⟩

/-- Instance of C1 on the sample maps: the rule removed twice is reported twice. -/
theorem compareRules_rule_events_witness :
    removedRules (eventsFor (compareRules ["*mangle", "*filter", "*nat"] exBefore exAfter) "*filter")
        = ["-A INPUT -s 10.0.0.1 -j DROP", "-A INPUT -s 10.0.0.1 -j DROP"] ∧
    addedRules (eventsFor (compareRules ["*mangle", "*filter", "*nat"] exBefore exAfter) "*filter")
        = ["-A FORWARD -j ACCEPT"] := by
  have h := compareRules_rule_events exBefore exAfter ["*mangle", "*filter", "*nat"] "*filter"
    (by decide) (by decide) (by decide)
  exact ⟨h.1.trans (by decide), h.2.1.trans (by decide)⟩

/-- C3: a table that is a key of `after` only gets exactly one table-added
event and nothing else; a table that is a key of `before` only gets exactly one
table-removed event and nothing else; a table that is a key of both gets
neither kind of event. -/
theorem compareRules_table_events (before after : RuleSet) (order : List String) (T : String)
    (hord : IsRangeOrder before after order) :
    (before.hasKey T = false → after.hasKey T = true →
      eventsFor (compareRules order before after) T = [Event.tableAdded T] ∧
      (compareRules order before after).count (Event.tableAdded T) = 1 ∧
      Event.tableRemoved T ∉ compareRules order before after) ∧
    (before.hasKey T = true → after.hasKey T = false →
      eventsFor (compareRules order before after) T = [Event.tableRemoved T] ∧
      (compareRules order before after).count (Event.tableRemoved T) = 1 ∧
      Event.tableAdded T ∉ compareRules order before after) ∧
    (before.hasKey T = true → after.hasKey T = true →
      (∀ e ∈ eventsFor (compareRules order before after) T,
        ∀ t, e ≠ Event.tableAdded t ∧ e ≠ Event.tableRemoved t) ∧
      Event.tableAdded T ∉ compareRules order before after ∧
      Event.tableRemoved T ∉ compareRules order before after) := by
  refine ⟨fun hb ha => ⟨?_, ?_, ?_⟩, fun hb ha => ⟨?_, ?_, ?_⟩, fun hb ha => ⟨?_, ?_, ?_⟩⟩
  · rw [eventsFor_of_rangeOrder hord T (Or.inr ha), tableBody_onlyAfter before after T hb]
  · rw [count_tableAdded, if_pos hb]
    exact hord.count_eq_one T (Or.inr ha)
  · rw [mem_tableRemoved_iff hord]; simp [hb]
  · rw [eventsFor_of_rangeOrder hord T (Or.inl hb), tableBody_onlyBefore before after T hb ha]
  · rw [count_tableRemoved, if_pos ⟨hb, ha⟩]
    exact hord.count_eq_one T (Or.inl hb)
  · rw [mem_tableAdded_iff hord]; simp [hb]
  · intro e he t
    rw [eventsFor_of_rangeOrder hord T (Or.inl hb), tableBody_both before after T hb ha] at he
    constructor
    · intro h; subst h; exact (ruleDiff_only_rules _ _ t).1 he
    · intro h; subst h; exact (ruleDiff_only_rules _ _ t).2 he
  · rw [mem_tableAdded_iff hord]; simp [hb]
  · rw [mem_tableRemoved_iff hord]; simp [ha]

/-- Instance of C3 on the sample maps: `*mangle` is added, `*nat` removed, `*filter` shared. -/
theorem compareRules_table_events_witness :
    eventsFor (compareRules ["*nat", "*mangle", "*filter"] exBefore exAfter) "*mangle"
      = [Event.tableAdded "*mangle"] ∧
    eventsFor (compareRules ["*nat", "*mangle", "*filter"] exBefore exAfter) "*nat"
      = [Event.tableRemoved "*nat"] ∧
    Event.tableAdded "*filter" ∉ compareRules ["*nat", "*mangle", "*filter"] exBefore exAfter ∧
    Event.tableRemoved "*filter" ∉ compareRules ["*nat", "*mangle", "*filter"] exBefore exAfter := by
  have h := compareRules_table_events exBefore exAfter ["*nat", "*mangle", "*filter"]
  have h1 := (h "*mangle" (by decide)).1 (by decide) (by decide)
  have h2 := (h "*nat" (by decide)).2.1 (by decide) (by decide)
  have h3 := (h "*filter" (by decide)).2.2 (by decide) (by decide)
  exact ⟨h1.1, h2.1, h3.2.1, h3.2.2⟩

/-- C6: comparing a map with itself prints the table headers and nothing
else: no removed-rule, added-rule, table-added or table-removed event. -/
theorem compareRules_self (X : RuleSet) (order : List String)
    (hord : IsRangeOrder X X order) :
    compareRules order X X = order.map Event.header ∧
    (∀ e ∈ compareRules order X X, e.isHeader = true) ∧
    (∀ T, eventsFor (compareRules order X X) T = []) := by
  have hkeys : ∀ t ∈ order, X.hasKey t = true := by
    intro t ht
    rcases (hord.mem_iff t).1 ht with h | h <;> exact h
  have hrep := compareRules_self_of_keys order X hkeys
  refine ⟨hrep, ?_, ?_⟩
  · intro e he
    rw [hrep] at he
    obtain ⟨t, _, rfl⟩ := List.mem_map.1 he
    rfl
  · intro T
    by_cases hT : T ∈ order
    · rw [eventsFor_compareRules order X X T hT, tableBody_both X X T (hkeys T hT) (hkeys T hT),
        ruleDiff_self]
    · rw [hrep]
      clear hrep hkeys hord
      induction order with
      | nil => rfl
      | cons t rest ih =>
        have hne : Event.header t ≠ Event.header T := by
          intro e; injection e with e'; exact hT (e' ▸ List.mem_cons_self _ _)
        simp only [List.map_cons, eventsFor, hne, if_false]
        exact ih (fun h => hT (List.mem_cons_of_mem _ h))

/-- Instance of C6 on the sample `before` map. -/
theorem compareRules_self_witness :
    compareRules ["*nat", "*filter"] exBefore exBefore
      = [Event.header "*nat", Event.header "*filter"] := by
  have h := compareRules_self exBefore ["*nat", "*filter"] (by decide)
  exact h.1

/-- C7: the tables reported added by `compareRules(A, B)` are the tables
reported removed by `compareRules(B, A)` and conversely; for a table that is a
key of both, the added rules of one comparison are, as a sequence of texts, the
removed rules of the other, and conversely. -/
theorem compareRules_symmetry (A B : RuleSet) (o1 o2 : List String)
    (h1 : IsRangeOrder A B o1) (h2 : IsRangeOrder B A o2) :
    (∀ t, Event.tableAdded t ∈ compareRules o1 A B ↔ Event.tableRemoved t ∈ compareRules o2 B A) ∧
    (∀ t, Event.tableRemoved t ∈ compareRules o1 A B ↔ Event.tableAdded t ∈ compareRules o2 B A) ∧
    (∀ T, A.hasKey T = true → B.hasKey T = true →
      addedRules (eventsFor (compareRules o1 A B) T)
        = removedRules (eventsFor (compareRules o2 B A) T) ∧
      removedRules (eventsFor (compareRules o1 A B) T)
        = addedRules (eventsFor (compareRules o2 B A) T)) := by
  refine ⟨fun t => ?_, fun t => ?_, fun T hA hB => ?_⟩
  · rw [mem_tableAdded_iff h1, mem_tableRemoved_iff h2]
    exact and_comm
  · rw [mem_tableRemoved_iff h1, mem_tableAdded_iff h2]
    exact and_comm
  · rw [eventsFor_of_rangeOrder h1 T (Or.inl hA), eventsFor_of_rangeOrder h2 T (Or.inl hB),
      tableBody_both A B T hA hB, tableBody_both B A T hB hA,
      addedRules_ruleDiff, removedRules_ruleDiff, addedRules_ruleDiff, removedRules_ruleDiff]
    exact ⟨rfl, rfl⟩

/-- Instance of C7 on the sample maps, the two calls visiting the tables in different orders. -/
theorem compareRules_symmetry_witness :
    (Event.tableAdded "*mangle" ∈ compareRules ["*filter", "*nat", "*mangle"] exBefore exAfter ↔
      Event.tableRemoved "*mangle" ∈ compareRules ["*mangle", "*filter", "*nat"] exAfter exBefore) ∧
    addedRules (eventsFor (compareRules ["*filter", "*nat", "*mangle"] exBefore exAfter) "*filter")
      = removedRules (eventsFor (compareRules ["*mangle", "*filter", "*nat"] exAfter exBefore) "*filter") := by
  have h := compareRules_symmetry exBefore exAfter ["*filter", "*nat", "*mangle"]
    ["*mangle", "*filter", "*nat"] (by decide) (by decide)
  exact ⟨h.1 "*mangle", (h.2.2 "*filter" (by decide) (by decide)).1⟩

/-- C8: replacing `before[T]` by a permutation `p` of itself and `after[T]` by
a permutation `q` of itself (either may be the sequence itself) leaves the set
of rule texts reported removed for `T` and the set reported added for `T`
unchanged; the events are printed in the order of the permuted sequences. -/
theorem compareRules_permutation (before after : RuleSet) (T : String) (p q : List String)
    (o o' : List String)
    (hb : before.hasKey T = true) (ha : after.hasKey T = true)
    (hp : p.Perm (before.index T)) (hq : q.Perm (after.index T))
    (ho : IsRangeOrder before after o)
    (ho' : IsRangeOrder (before.assign T p) (after.assign T q) o') :
    (∀ r, r ∈ removedRules (eventsFor (compareRules o' (before.assign T p) (after.assign T q)) T)
        ↔ r ∈ removedRules (eventsFor (compareRules o before after) T)) ∧
    (∀ r, r ∈ addedRules (eventsFor (compareRules o' (before.assign T p) (after.assign T q)) T)
        ↔ r ∈ addedRules (eventsFor (compareRules o before after) T)) ∧
    removedRules (eventsFor (compareRules o' (before.assign T p) (after.assign T q)) T)
        = p.filter (fun r => decide (r ∉ q)) ∧
    addedRules (eventsFor (compareRules o' (before.assign T p) (after.assign T q)) T)
        = q.filter (fun r => decide (r ∉ p)) := by
  have hb' : (before.assign T p).hasKey T = true := by simp [RuleSet.hasKey_assign]
  have ha' : (after.assign T q).hasKey T = true := by simp [RuleSet.hasKey_assign]
  have e : eventsFor (compareRules o before after) T
      = ruleDiff (before.index T) (after.index T) := by
    rw [eventsFor_of_rangeOrder ho T (Or.inl hb), tableBody_both before after T hb ha]
  have e' : eventsFor (compareRules o' (before.assign T p) (after.assign T q)) T
      = ruleDiff p q := by
    rw [eventsFor_of_rangeOrder ho' T (Or.inl hb'), tableBody_both _ _ T hb' ha',
      RuleSet.index_assign_same, RuleSet.index_assign_same]
  rw [e, e', removedRules_ruleDiff, removedRules_ruleDiff, addedRules_ruleDiff,
    addedRules_ruleDiff]
  refine ⟨fun r => ?_, fun r => ?_, rfl, rfl⟩
  · simp only [List.mem_filter, decide_eq_true_eq, hp.mem_iff, hq.mem_iff]
  · simp only [List.mem_filter, decide_eq_true_eq, hp.mem_iff, hq.mem_iff]

/-- Instance of C8: both `*filter` sequences of the sample maps permuted. -/
theorem compareRules_permutation_witness :
    removedRules (eventsFor (compareRules ["*nat", "*filter", "*mangle"]
        (exBefore.assign "*filter" ["-A INPUT -j ACCEPT", "-A INPUT -s 10.0.0.1 -j DROP",
          "-A INPUT -j ACCEPT", "-A INPUT -s 10.0.0.1 -j DROP"])
        (exAfter.assign "*filter" ["-A INPUT -j ACCEPT", "-A FORWARD -j ACCEPT"])) "*filter")
      = ["-A INPUT -s 10.0.0.1 -j DROP", "-A INPUT -s 10.0.0.1 -j DROP"] ∧
    removedRules (eventsFor (compareRules ["*filter", "*nat", "*mangle"] exBefore exAfter) "*filter")
      = ["-A INPUT -s 10.0.0.1 -j DROP", "-A INPUT -s 10.0.0.1 -j DROP"] := by
  have h := compareRules_permutation exBefore exAfter "*filter"
    ["-A INPUT -j ACCEPT", "-A INPUT -s 10.0.0.1 -j DROP",
      "-A INPUT -j ACCEPT", "-A INPUT -s 10.0.0.1 -j DROP"]
    ["-A INPUT -j ACCEPT", "-A FORWARD -j ACCEPT"]
    ["*filter", "*nat", "*mangle"] ["*nat", "*filter", "*mangle"]
    (by decide) (by decide) (by decide) (by decide) (by decide) (by decide)
  exact ⟨h.2.2.1.trans (by decide), by decide⟩

/-- C9, as stated, fails: with `before` holding only `*filter` and `after` only
`*nat`, both with the single rule `r`, the premises hold (`r` is in
`before["*filter"]` and `after["*nat"]`, not in `after["*filter"]` nor
`before["*nat"]`), and the report has a table-removed and a table-added event
and no rule event at all. -/
theorem table_isolation_counterexample :
    IsRangeOrder [("*filter", ["-A INPUT -j DROP"])] [("*nat", ["-A INPUT -j DROP"])]
      ["*filter", "*nat"] ∧
    "-A INPUT -j DROP" ∈ RuleSet.index [("*filter", ["-A INPUT -j DROP"])] "*filter" ∧
    "-A INPUT -j DROP" ∈ RuleSet.index [("*nat", ["-A INPUT -j DROP"])] "*nat" ∧
    "-A INPUT -j DROP" ∉ RuleSet.index [("*nat", ["-A INPUT -j DROP"])] "*filter" ∧
    "-A INPUT -j DROP" ∉ RuleSet.index [("*filter", ["-A INPUT -j DROP"])] "*nat" ∧
    compareRules ["*filter", "*nat"]
        [("*filter", ["-A INPUT -j DROP"])] [("*nat", ["-A INPUT -j DROP"])]
      = [Event.header "*filter", Event.tableRemoved "*filter",
         Event.header "*nat", Event.tableAdded "*nat"] ∧
    Event.ruleRemoved "-A INPUT -j DROP" ∉ eventsFor (compareRules ["*filter", "*nat"]
        [("*filter", ["-A INPUT -j DROP"])] [("*nat", ["-A INPUT -j DROP"])]) "*filter" ∧
    Event.ruleAdded "-A INPUT -j DROP" ∉ eventsFor (compareRules ["*filter", "*nat"]
        [("*filter", ["-A INPUT -j DROP"])] [("*nat", ["-A INPUT -j DROP"])]) "*nat" := by
  decide

/-- C9, amended: when the table `F` (`*filter`) is a key of both maps and the
table `N` (`*nat`) is a key of both maps, a rule `r` that occurs in `before[F]`
and in `after[N]`, but neither in `after[F]` nor in `before[N]`, is reported
removed under `F` and added under `N`. -/
theorem compareRules_table_isolation (before after : RuleSet) (order : List String)
    (F N r : String) (hord : IsRangeOrder before after order)
    (hF : after.hasKey F = true) (hN : before.hasKey N = true)
    (hbF : r ∈ before.index F) (haN : r ∈ after.index N)
    (haF : r ∉ after.index F) (hbN : r ∉ before.index N) :
    Event.ruleRemoved r ∈ eventsFor (compareRules order before after) F ∧
    Event.ruleAdded r ∈ eventsFor (compareRules order before after) N := by
  have key_of_mem : ∀ (m : RuleSet) (k : String), r ∈ m.index k → m.hasKey k = true := by
    intro m k h
    cases hl : m.lookup k with
    | none => simp [RuleSet.index, hl] at h
    | some v => simp [RuleSet.hasKey, hl]
  have hF' := key_of_mem before F hbF
  have hN' := key_of_mem after N haN
  rw [eventsFor_of_rangeOrder hord F (Or.inl hF'), tableBody_both before after F hF' hF,
    eventsFor_of_rangeOrder hord N (Or.inl hN), tableBody_both before after N hN hN']
  constructor
  · simp only [ruleDiff, List.mem_append, List.mem_map, List.mem_filter, decide_eq_true_eq]
    exact Or.inl ⟨r, ⟨hbF, haF⟩, rfl⟩
  · simp only [ruleDiff, List.mem_append, List.mem_map, List.mem_filter, decide_eq_true_eq]
    exact Or.inr ⟨r, ⟨haN, hbN⟩, rfl⟩

/-- Instance of the amended C9: both tables present on both sides. -/
theorem compareRules_table_isolation_witness :
    Event.ruleRemoved "-A INPUT -j DROP" ∈ eventsFor (compareRules ["*nat", "*filter"]
        [("*filter", ["-A INPUT -j DROP"]), ("*nat", [])]
        [("*filter", []), ("*nat", ["-A INPUT -j DROP"])]) "*filter" ∧
    Event.ruleAdded "-A INPUT -j DROP" ∈ eventsFor (compareRules ["*nat", "*filter"]
        [("*filter", ["-A INPUT -j DROP"]), ("*nat", [])]
        [("*filter", []), ("*nat", ["-A INPUT -j DROP"])]) "*nat" :=
  compareRules_table_isolation
    [("*filter", ["-A INPUT -j DROP"]), ("*nat", [])]
    [("*filter", []), ("*nat", ["-A INPUT -j DROP"])]
    ["*nat", "*filter"] "*filter" "*nat" "-A INPUT -j DROP"
    (by decide) (by decide) (by decide) (by decide) (by decide) (by decide) (by decide)

/-- C10: for a table `T` that is a key of both maps, a rule text that occurs
at least once in `before[T]` and at least once in `after[T]` is the text of no
removed-rule and of no added-rule event printed for `T`, whatever its number of
occurrences on either side. -/
theorem compareRules_common_rule (before after : RuleSet) (order : List String) (T r : String)
    (hord : IsRangeOrder before after order)
    (hb : before.hasKey T = true) (ha : after.hasKey T = true)
    (hrb : r ∈ before.index T) (hra : r ∈ after.index T) :
    Event.ruleRemoved r ∉ eventsFor (compareRules order before after) T ∧
    Event.ruleAdded r ∉ eventsFor (compareRules order before after) T ∧
    r ∉ removedRules (eventsFor (compareRules order before after) T) ∧
    r ∉ addedRules (eventsFor (compareRules order before after) T) := by
  rw [eventsFor_of_rangeOrder hord T (Or.inl hb), tableBody_both before after T hb ha,
    removedRules_ruleDiff, addedRules_ruleDiff]
  refine ⟨?_, ?_, ?_, ?_⟩
  · simp only [ruleDiff, List.mem_append, List.mem_map, List.mem_filter, decide_eq_true_eq]
    rintro (⟨x, ⟨_, hx⟩, e⟩ | ⟨x, _, e⟩)
    · injection e with e'; subst e'; exact hx hra
    · cases e
  · simp only [ruleDiff, List.mem_append, List.mem_map, List.mem_filter, decide_eq_true_eq]
    rintro (⟨x, _, e⟩ | ⟨x, ⟨_, hx⟩, e⟩)
    · cases e
    · injection e with e'; subst e'; exact hx hrb
  · simp only [List.mem_filter, decide_eq_true_eq]
    exact fun h => h.2 hra
  · simp only [List.mem_filter, decide_eq_true_eq]
    exact fun h => h.2 hrb

/-- Instance of C10: the rule occurs twice in `before` and once in `after`. -/
theorem compareRules_common_rule_witness :
    removedRules (eventsFor (compareRules ["*filter"]
        [("*filter", ["-A INPUT -j DROP", "-A INPUT -j DROP"])]
        [("*filter", ["-A INPUT -j DROP"])]) "*filter") = [] ∧
    Event.ruleRemoved "-A INPUT -j DROP" ∉ eventsFor (compareRules ["*filter"]
        [("*filter", ["-A INPUT -j DROP", "-A INPUT -j DROP"])]
        [("*filter", ["-A INPUT -j DROP"])]) "*filter" ∧
    Event.ruleAdded "-A INPUT -j DROP" ∉ eventsFor (compareRules ["*filter"]
        [("*filter", ["-A INPUT -j DROP", "-A INPUT -j DROP"])]
        [("*filter", ["-A INPUT -j DROP"])]) "*filter" := by
  have h := compareRules_common_rule
    [("*filter", ["-A INPUT -j DROP", "-A INPUT -j DROP"])]
    [("*filter", ["-A INPUT -j DROP"])] ["*filter"] "*filter" "-A INPUT -j DROP"
    (by decide) (by decide) (by decide) (by decide) (by decide)
  exact ⟨by decide, h.1, h.2.1⟩

/-! ## Lemmas on the kinds of line -/

theorem HasPrefix_star (s : String) (h : HasPrefix s "*" = true) :
    s ≠ "" ∧ HasPrefix s "#" = false ∧ HasPrefix s "COMMIT" = false := by
  obtain ⟨cs⟩ := s
  cases cs with
  | nil => exact absurd h (by decide)
  | cons c cs =>
    have hc : c = '*' := by
      have : ('*' == c) = true := by
        simpa [HasPrefix, List.isPrefixOf] using h
      exact (beq_iff_eq.1 this).symm
    subst hc
    refine ⟨?_, ?_, ?_⟩
    · intro e
      have e' : '*' :: cs = [] := congrArg String.data e
      cases e'
    · simp [HasPrefix, List.isPrefixOf]
    · simp [HasPrefix, List.isPrefixOf]

theorem HasPrefix_commit (s : String) (h : HasPrefix s "COMMIT" = true) :
    s ≠ "" ∧ HasPrefix s "#" = false ∧ HasPrefix s "*" = false := by
  obtain ⟨cs⟩ := s
  cases cs with
  | nil => exact absurd h (by decide)
  | cons c cs =>
    have hc : c = 'C' := by
      have : ('C' == c) = true := by
        have h' : (('C' == c) && List.isPrefixOf ['O', 'M', 'M', 'I', 'T'] cs) = true := h
        exact (Bool.and_eq_true_iff.1 h').1
      exact (beq_iff_eq.1 this).symm
    subst hc
    refine ⟨?_, ?_, ?_⟩
    · intro e
      have e' : 'C' :: cs = [] := congrArg String.data e
      cases e'
    · simp [HasPrefix, List.isPrefixOf]
    · simp [HasPrefix, List.isPrefixOf]

theorem isTableLine_name_ne_empty {raw : String} (h : IsTableLine raw) : TrimSpace raw ≠ "" :=
  (HasPrefix_star _ h).1

theorem loadStep_skipped (st : LoadState) (raw : String) (h : IsSkippedLine raw) :
    loadStep st raw = st := by
  unfold IsSkippedLine at h
  simp only [loadStep, h, if_true]

theorem loadStep_table (st : LoadState) (raw : String) (h : IsTableLine raw) :
    loadStep st raw
      = { rules := st.rules.assign (TrimSpace raw) [], currentChain := TrimSpace raw } := by
  obtain ⟨h1, h2, _⟩ := HasPrefix_star _ h
  unfold IsTableLine at h
  simp [loadStep, h, h1, h2]

theorem loadStep_commit (st : LoadState) (raw : String) (h : IsCommitLine raw) :
    loadStep st raw = { st with currentChain := "" } := by
  obtain ⟨h1, h2, h3⟩ := HasPrefix_commit _ h
  unfold IsCommitLine at h
  simp [loadStep, h, h1, h2, h3]

theorem loadStep_rule_open (st : LoadState) (raw : String) (h : IsRuleLine raw)
    (hopen : st.currentChain ≠ "") :
    loadStep st raw
      = { rules := st.rules.assign st.currentChain (st.rules.index st.currentChain ++ [TrimSpace raw]),
          currentChain := st.currentChain } := by
  obtain ⟨h1, h2, h3, h4⟩ := h
  simp [loadStep, h1, h2, h3, h4, hopen]

theorem loadStep_rule_closed (st : LoadState) (raw : String) (h : IsRuleLine raw)
    (hclosed : st.currentChain = "") :
    loadStep st raw = st := by
  obtain ⟨h1, h2, h3, h4⟩ := h
  simp [loadStep, h1, h2, h3, h4, hclosed]

/-- Every line is of exactly one kind; the four cases. -/
theorem line_cases (raw : String) :
    IsSkippedLine raw ∨ IsTableLine raw ∨ IsCommitLine raw ∨ IsRuleLine raw := by
  unfold IsSkippedLine IsTableLine IsCommitLine IsRuleLine
  by_cases h1 : TrimSpace raw = ""
  · exact Or.inl (Or.inl h1)
  · cases h2 : HasPrefix (TrimSpace raw) "#"
    · cases h3 : HasPrefix (TrimSpace raw) "*"
      · cases h4 : HasPrefix (TrimSpace raw) "COMMIT"
        · exact Or.inr (Or.inr (Or.inr ⟨h1, rfl, rfl, rfl⟩))
        · exact Or.inr (Or.inr (Or.inl rfl))
      · exact Or.inr (Or.inl rfl)
    · exact Or.inl (Or.inr rfl)

theorem isRuleLine_not_table {raw : String} (h : IsRuleLine raw) : ¬ IsTableLine raw := by
  unfold IsTableLine; simp [h.2.2.1]

theorem isRuleLine_not_commit {raw : String} (h : IsRuleLine raw) : ¬ IsCommitLine raw := by
  unfold IsCommitLine; simp [h.2.2.2]

theorem isCommitLine_not_table {raw : String} (h : IsCommitLine raw) : ¬ IsTableLine raw := by
  unfold IsTableLine; simp [(HasPrefix_commit _ h).2.2]

theorem isSkippedLine_not_table {raw : String} (h : IsSkippedLine raw) : ¬ IsTableLine raw := by
  intro ht
  obtain ⟨h1, h2, _⟩ := HasPrefix_star _ ht
  rcases h with h | h
  · exact h1 h
  · rw [h2] at h; cases h

theorem isSkippedLine_not_commit {raw : String} (h : IsSkippedLine raw) : ¬ IsCommitLine raw := by
  intro ht
  obtain ⟨h1, h2, _⟩ := HasPrefix_commit _ ht
  rcases h with h | h
  · exact h1 h
  · rw [h2] at h; cases h

theorem isSkippedLine_not_rule {raw : String} (h : IsSkippedLine raw) : ¬ IsRuleLine raw := by
  intro hr
  rcases h with h | h
  · exact hr.1 h
  · rw [hr.2.1] at h; cases h

/-! ## Lemmas on the parser loop -/

theorem loadFrom_cons (st : LoadState) (raw : String) (rest : List String) :
    loadFrom st (raw :: rest) = loadFrom (loadStep st raw) rest := rfl

theorem loadLoop_append (pre post : List String) :
    loadLoop (pre ++ post) = loadFrom (loadLoop pre) post := by
  simp [loadLoop, loadFrom, List.foldl_append]

theorem loadLoop_snoc (pre : List String) (raw : String) :
    loadLoop (pre ++ [raw]) = loadStep (loadLoop pre) raw := by
  rw [loadLoop_append]; rfl

theorem openTableFrom_cons (cur : Option String) (raw : String) (rest : List String) :
    openTableFrom cur (raw :: rest)
      = openTableFrom (if IsTableLine raw then some (TrimSpace raw)
          else if IsCommitLine raw then none else cur) rest := rfl

theorem openTableFrom_append (cur : Option String) (pre post : List String) :
    openTableFrom cur (pre ++ post) = openTableFrom (openTableFrom cur pre) post := by
  simp [openTableFrom, List.foldl_append]

/-- The variable `currentChain` holds the open table, or `""` when none is. -/
theorem currentChain_loadFrom (lines : List String) :
    ∀ (st : LoadState) (cur : Option String), st.currentChain = cur.getD "" →
      (loadFrom st lines).currentChain = (openTableFrom cur lines).getD "" := by
  induction lines with
  | nil => intro st cur h; exact h
  | cons raw rest ih =>
    intro st cur h
    rw [loadFrom_cons, openTableFrom_cons]
    apply ih
    rcases line_cases raw with hk | hk | hk | hk
    · rw [loadStep_skipped st raw hk, if_neg (isSkippedLine_not_table hk), if_neg (isSkippedLine_not_commit hk)]; exact h
    · rw [loadStep_table st raw hk, if_pos hk]; rfl
    · rw [loadStep_commit st raw hk, if_neg (isCommitLine_not_table hk), if_pos hk]; rfl
    · rw [if_neg (isRuleLine_not_table hk), if_neg (isRuleLine_not_commit hk)]
      by_cases hc : st.currentChain = ""
      · rw [loadStep_rule_closed st raw hk hc]; exact h
      · rw [loadStep_rule_open st raw hk hc]; exact h

theorem currentChain_loadLoop (lines : List String) :
    (loadLoop lines).currentChain = (openTable lines).getD "" :=
  currentChain_loadFrom lines _ none rfl

theorem openTableFrom_ne_empty (lines : List String) :
    ∀ (cur : Option String), (∀ T, cur = some T → T ≠ "") →
      ∀ T, openTableFrom cur lines = some T → T ≠ "" := by
  induction lines with
  | nil => intro cur h T hT; exact h T hT
  | cons raw rest ih =>
    intro cur h T hT
    rw [openTableFrom_cons] at hT
    refine ih _ ?_ T hT
    intro U hU
    by_cases h1 : IsTableLine raw
    · rw [if_pos h1] at hU
      injection hU with hU
      rw [← hU]; exact (isTableLine_name_ne_empty h1)
    · rw [if_neg h1] at hU
      by_cases h2 : IsCommitLine raw
      · rw [if_pos h2] at hU; cases hU
      · rw [if_neg h2] at hU; exact h U hU

theorem openTable_ne_empty (lines : List String) (T : String) (h : openTable lines = some T) :
    T ≠ "" :=
  openTableFrom_ne_empty lines none (fun _ h => by cases h) T h

theorem openTableFrom_none_of_no_table (lines : List String)
    (h : ∀ l ∈ lines, ¬ IsTableLine l) : openTableFrom none lines = none := by
  induction lines with
  | nil => rfl
  | cons raw rest ih =>
    rw [openTableFrom_cons, if_neg (h raw (List.mem_cons_self _ _))]
    have : (if IsCommitLine raw then (none : Option String) else none) = none := by
      split <;> rfl
    rw [this]
    exact ih (fun l hl => h l (List.mem_cons_of_mem _ hl))

/-- No table is open after lines without a table line, or after a `COMMIT`
line followed by lines without a table line. -/
theorem openTable_none_of_closed (pre : List String)
    (h : (∀ l ∈ pre, ¬ IsTableLine l) ∨
      (∃ a c b, pre = a ++ c :: b ∧ IsCommitLine c ∧ ∀ l ∈ b, ¬ IsTableLine l)) :
    openTable pre = none := by
  rcases h with h | ⟨a, c, b, rfl, hc, hb⟩
  · exact openTableFrom_none_of_no_table pre h
  · unfold openTable
    rw [openTableFrom_append, openTableFrom_cons, if_neg (isCommitLine_not_table hc), if_pos hc]
    exact openTableFrom_none_of_no_table b hb

/-- A line that is not a table line leaves the state as it is when no table
is open. -/
theorem loadStep_closed (st : LoadState) (raw : String) (hc : st.currentChain = "")
    (hraw : ¬ IsTableLine raw) : loadStep st raw = st := by
  rcases line_cases raw with hk | hk | hk | hk
  · exact loadStep_skipped st raw hk
  · exact absurd hk hraw
  · rw [loadStep_commit st raw hk]
    cases st
    simp only at hc
    rw [hc]
  · exact loadStep_rule_closed st raw hk hc

theorem no_empty_key_loadFrom (lines : List String) :
    ∀ (st : LoadState), st.rules.lookup "" = none → (loadFrom st lines).rules.lookup "" = none := by
  induction lines with
  | nil => intro st h; exact h
  | cons raw rest ih =>
    intro st h
    rw [loadFrom_cons]
    apply ih
    rcases line_cases raw with hk | hk | hk | hk
    · rw [loadStep_skipped st raw hk]; exact h
    · rw [loadStep_table st raw hk]
      show (st.rules.assign (TrimSpace raw) []).lookup "" = none
      rw [RuleSet.lookup_assign_other _ _ _ _ (Ne.symm (isTableLine_name_ne_empty hk))]; exact h
    · rw [loadStep_commit st raw hk]; exact h
    · by_cases hc : st.currentChain = ""
      · rw [loadStep_rule_closed st raw hk hc]; exact h
      · rw [loadStep_rule_open st raw hk hc]
        show (st.rules.assign st.currentChain _).lookup "" = none
        rw [RuleSet.lookup_assign_other _ _ _ _ (Ne.symm hc)]; exact h

/-- Lines after which `T` is not open and that do not open `T` leave the entry
of `T` as it is. -/
theorem lookup_loadFrom_other (T : String) (hT : T ≠ "") (lines : List String) :
    ∀ (st : LoadState), st.currentChain ≠ T →
      (∀ l ∈ lines, IsTableLine l → TrimSpace l ≠ T) →
      (loadFrom st lines).rules.lookup T = st.rules.lookup T := by
  induction lines with
  | nil => intro st _ _; rfl
  | cons raw rest ih =>
    intro st hcur hno
    have hrest : ∀ l ∈ rest, IsTableLine l → TrimSpace l ≠ T :=
      fun l hl => hno l (List.mem_cons_of_mem _ hl)
    rw [loadFrom_cons]
    rcases line_cases raw with hk | hk | hk | hk
    · rw [loadStep_skipped st raw hk]; exact ih st hcur hrest
    · have hne : TrimSpace raw ≠ T := hno raw (List.mem_cons_self _ _) hk
      rw [loadStep_table st raw hk, ih _ hne hrest]
      exact RuleSet.lookup_assign_other _ _ _ _ (Ne.symm hne)
    · rw [loadStep_commit st raw hk, ih _ (Ne.symm hT) hrest]
    · by_cases hc : st.currentChain = ""
      · rw [loadStep_rule_closed st raw hk hc]; exact ih st hcur hrest
      · rw [loadStep_rule_open st raw hk hc]
        refine (ih ⟨st.rules.assign st.currentChain
          (st.rules.index st.currentChain ++ [TrimSpace raw]), st.currentChain⟩ hcur hrest).trans ?_
        exact RuleSet.lookup_assign_other _ _ _ _ (Ne.symm hcur)

/-- While `T` is open, its entry grows by the rule lines of the section. -/
theorem lookup_loadFrom_open (T : String) (hT : T ≠ "") (lines : List String) :
    ∀ (st : LoadState) (acc : List String), st.currentChain = T →
      st.rules.lookup T = some acc →
      (∀ l ∈ lines, IsTableLine l → TrimSpace l ≠ T) →
      (loadFrom st lines).rules.lookup T = some (acc ++ sectionRules lines) := by
  induction lines with
  | nil => intro st acc _ hacc _; simpa [sectionRules, loadFrom] using hacc
  | cons raw rest ih =>
    intro st acc hcur hacc hno
    have hrest : ∀ l ∈ rest, IsTableLine l → TrimSpace l ≠ T :=
      fun l hl => hno l (List.mem_cons_of_mem _ hl)
    rw [loadFrom_cons]
    rcases line_cases raw with hk | hk | hk | hk
    · rw [loadStep_skipped st raw hk, ih st acc hcur hacc hrest]
      simp [sectionRules, (isSkippedLine_not_table hk), (isSkippedLine_not_commit hk), (isSkippedLine_not_rule hk)]
    · have hne : TrimSpace raw ≠ T := hno raw (List.mem_cons_self _ _) hk
      rw [loadStep_table st raw hk, lookup_loadFrom_other T hT rest _ hne hrest]
      show (st.rules.assign (TrimSpace raw) []).lookup T = _
      rw [RuleSet.lookup_assign_other _ _ _ _ (Ne.symm hne), hacc]
      simp [sectionRules, hk]
    · rw [loadStep_commit st raw hk, lookup_loadFrom_other T hT rest _ (Ne.symm hT) hrest]
      show st.rules.lookup T = _
      rw [hacc]
      simp [sectionRules, hk]
    · have hc : st.currentChain ≠ "" := by rw [hcur]; exact hT
      rw [loadStep_rule_open st raw hk hc]
      have hidx : st.rules.index st.currentChain = acc := by
        simp [RuleSet.index, hcur, hacc]
      rw [hidx, hcur]
      rw [ih _ (acc ++ [TrimSpace raw]) rfl (RuleSet.lookup_assign_same _ _ _) hrest]
      simp [sectionRules, (isRuleLine_not_table hk), (isRuleLine_not_commit hk), hk]

/-- A run of rule lines inside the only section. -/
theorem loadFrom_single_section (T : String) (hT : T ≠ "") (rs : List String)
    (hrs : ∀ r ∈ rs, IsRuleLine r) :
    ∀ acc : List String,
      loadFrom { rules := [(T, acc)], currentChain := T } rs
        = { rules := [(T, acc ++ rs.map TrimSpace)], currentChain := T } := by
  induction rs with
  | nil => intro acc; simp [loadFrom]
  | cons r rs ih =>
    intro acc
    rw [loadFrom_cons, loadStep_rule_open _ r (hrs r (List.mem_cons_self _ _)) hT]
    have e : RuleSet.assign [(T, acc)] T (RuleSet.index [(T, acc)] T ++ [TrimSpace r])
        = [(T, acc ++ [TrimSpace r])] := by
      simp [RuleSet.assign, RuleSet.index, RuleSet.lookup]
    simp only [e]
    rw [ih (fun x hx => hrs x (List.mem_cons_of_mem _ hx))]
    simp

/-! ## Properties of the parser -/

/-- C2, as stated, fails: with two `*filter` sections separated by `COMMIT`,
the table line of the second section resets the entry, and the result holds
the rule of the second section only, not the concatenation of both. -/
theorem loadRules_reopen_counterexample :
    loadRules ["*filter", "-A INPUT -j DROP", "COMMIT",
        "*filter", "-A INPUT -j ACCEPT", "COMMIT"]
      = [("*filter", ["-A INPUT -j ACCEPT"])] ∧
    (loadRules ["*filter", "-A INPUT -j DROP", "COMMIT",
        "*filter", "-A INPUT -j ACCEPT", "COMMIT"]).index "*filter"
      ≠ ["-A INPUT -j DROP", "-A INPUT -j ACCEPT"] := by
  decide

/-- On the lines delivered by the scanner: a table line `*T` resets the entry
of `*T`, and the loop leaves for `*T` the rule lines of the last `*T` section
only (those between the last `*T` line and the next table line or `COMMIT`
line), whatever earlier `*T` sections held. -/
theorem loadRules_last_section (pre post : List String) (tline : String)
    (ht : IsTableLine tline)
    (hlast : ∀ l ∈ post, IsTableLine l → TrimSpace l ≠ TrimSpace tline) :
    (loadRules (pre ++ tline :: post)).lookup (TrimSpace tline) = some (sectionRules post) := by
  unfold loadRules
  rw [loadLoop_append, loadFrom_cons, loadStep_table _ tline ht]
  have h := lookup_loadFrom_open (TrimSpace tline) (isTableLine_name_ne_empty ht) post
    { rules := (loadLoop pre).rules.assign (TrimSpace tline) [], currentChain := TrimSpace tline }
    [] rfl (RuleSet.lookup_assign_same _ _ _) hlast
  simpa using h

/-- On the lines delivered by the scanner: a rule line read while table `T` is
open is appended, trimmed, to the sequence of `T`, and the entry of every other
table is left as it is; a single section `*T`, `r1`, ..., `rn`, `COMMIT` gives
the map with the one entry of `*T`, holding the trimmed rule lines in order. -/
theorem loadRules_stores_rule (pre : List String) (raw T : String)
    (tline commit : String) (rs : List String)
    (hopen : openTable pre = some T) (hrule : IsRuleLine raw)
    (ht : IsTableLine tline) (hrs : ∀ r ∈ rs, IsRuleLine r) (hc : IsCommitLine commit) :
    (loadRules (pre ++ [raw])).lookup T
        = some ((loadRules pre).index T ++ [TrimSpace raw]) ∧
    (∀ k, k ≠ T → (loadRules (pre ++ [raw])).lookup k = (loadRules pre).lookup k) ∧
    loadRules (tline :: rs ++ [commit]) = [(TrimSpace tline, rs.map TrimSpace)] := by
  have hcur : (loadLoop pre).currentChain = T := by
    rw [currentChain_loadLoop, hopen]; rfl
  have hT : T ≠ "" := openTable_ne_empty pre T hopen
  have hne : (loadLoop pre).currentChain ≠ "" := by rw [hcur]; exact hT
  have hstep : loadRules (pre ++ [raw])
      = (loadRules pre).assign T ((loadRules pre).index T ++ [TrimSpace raw]) := by
    unfold loadRules
    rw [loadLoop_snoc, loadStep_rule_open _ raw hrule hne, hcur]
  refine ⟨?_, ?_, ?_⟩
  · rw [hstep]; exact RuleSet.lookup_assign_same _ _ _
  · intro k hk
    rw [hstep]; exact RuleSet.lookup_assign_other _ _ _ _ hk
  · unfold loadRules loadLoop
    have e : (tline :: rs ++ [commit]) = tline :: (rs ++ [commit]) := rfl
    rw [e, List.foldl_cons, loadStep_table _ tline ht, List.foldl_append]
    have h := loadFrom_single_section (TrimSpace tline) (isTableLine_name_ne_empty ht) rs hrs []
    unfold loadFrom at h
    have e2 : RuleSet.assign [] (TrimSpace tline) [] = [(TrimSpace tline, [])] := rfl
    simp only [e2]
    rw [h]
    simp only [List.foldl_cons, List.foldl_nil, loadStep_commit _ commit hc, List.nil_append]

/-- On the lines delivered by the scanner: a line that is not a table line
and is read while no table is open leaves the state of the loop as it is, so
the loop builds the same map without that line; and the map never has an entry
whose key is the empty string. -/
theorem loadRules_discards_outside (pre post : List String) (raw : String)
    (hclosed : (∀ l ∈ pre, ¬ IsTableLine l) ∨
      (∃ a c b, pre = a ++ c :: b ∧ IsCommitLine c ∧ ∀ l ∈ b, ¬ IsTableLine l))
    (hraw : ¬ IsTableLine raw) :
    loadLoop (pre ++ [raw]) = loadLoop pre ∧
    loadRules (pre ++ raw :: post) = loadRules (pre ++ post) ∧
    (loadRules (pre ++ raw :: post)).hasKey "" = false ∧
    (∀ lines, (loadRules lines).hasKey "" = false) := by
  have hcur : (loadLoop pre).currentChain = "" := by
    rw [currentChain_loadLoop, openTable_none_of_closed pre hclosed]; rfl
  have hstep : loadStep (loadLoop pre) raw = loadLoop pre :=
    loadStep_closed _ raw hcur hraw
  have hkey : ∀ lines, (loadRules lines).hasKey "" = false := by
    intro lines
    rw [RuleSet.hasKey_eq_false_iff]
    exact no_empty_key_loadFrom lines _ rfl
  refine ⟨?_, ?_, hkey _, hkey⟩
  · rw [loadLoop_snoc, hstep]
  · unfold loadRules
    rw [loadLoop_append, loadFrom_cons, hstep, loadLoop_append]

/-! ## Further lemmas on the differ -/

theorem count_header_tableBody (before after : RuleSet) (t T : String) :
    (tableBody before after t).count (Event.header T) = 0 := by
  rw [List.count_eq_zero]
  intro h
  have := tableBody_no_header before after t _ h
  simp [Event.isHeader] at this

/-- Number of headers of `T` in a report. -/
theorem count_header (order : List String) (before after : RuleSet) (T : String) :
    (compareRules order before after).count (Event.header T) = order.count T := by
  induction order with
  | nil => simp [compareRules]
  | cons t rest ih =>
    rw [compareRules_cons, List.count_cons, List.count_append, ih,
      count_header_tableBody, List.count_cons]
    by_cases ht : t = T
    · subst ht; simp
    · have hne : Event.header t ≠ Event.header T := by
        intro e; injection e with e'; exact ht e'
      simp [ht, hne]

theorem eventsFor_of_not_mem (order : List String) (before after : RuleSet) (T : String)
    (h : T ∉ order) : eventsFor (compareRules order before after) T = [] := by
  induction order with
  | nil => rfl
  | cons t rest ih =>
    have ht : t ≠ T := fun e => h (e ▸ List.mem_cons_self _ _)
    have hne : Event.header t ≠ Event.header T := by
      intro e; injection e with e'; exact ht e'
    rw [compareRules_cons]
    simp only [eventsFor, hne, if_false]
    rw [eventsFor_append_of_no_header _ _ _ (tableBody_no_header _ _ _)]
    exact ih (fun hm => h (List.mem_cons_of_mem _ hm))

theorem blocks_compareRules (order : List String) (before after : RuleSet) (sub : List String)
    (h : ∀ t ∈ sub, t ∈ order) :
    blocks (compareRules order before after) sub = compareRules sub before after := by
  induction sub with
  | nil => rfl
  | cons t rest ih =>
    rw [compareRules_cons, blocks, eventsFor_compareRules order before after t
      (h t (List.mem_cons_self _ _)), ih (fun u hu => h u (List.mem_cons_of_mem _ hu))]

theorem compareRules_eq_nil_iff (order : List String) (before after : RuleSet) :
    compareRules order before after = [] ↔ order = [] := by
  cases order with
  | nil => simp [compareRules]
  | cons t rest => simp [compareRules_cons]

theorem allTables_eq_nil_iff (before after : RuleSet) :
    allTables before after = [] ↔ before.keys = [] ∧ after.keys = [] := by
  unfold allTables
  constructor
  · intro h
    have hmem : ∀ x, x ∉ before.keys ++ after.keys := by
      intro x hx
      have : x ∈ (before.keys ++ after.keys).dedup := List.mem_dedup.2 hx
      rw [h] at this
      cases this
    have hnil : before.keys ++ after.keys = [] := List.eq_nil_iff_forall_not_mem.2 hmem
    exact List.append_eq_nil.1 hnil
  · rintro ⟨h1, h2⟩
    rw [h1, h2]; rfl

theorem mem_compareRules (order : List String) (before after : RuleSet) (e : Event) :
    e ∈ compareRules order before after
      ↔ ∃ t ∈ order, e = Event.header t ∨ e ∈ tableBody before after t := by
  induction order with
  | nil => simp [compareRules]
  | cons t rest ih =>
    rw [compareRules_cons, List.mem_cons, List.mem_append, ih]
    constructor
    · rintro (h | h | ⟨u, hu, h⟩)
      · exact ⟨t, List.mem_cons_self _ _, Or.inl h⟩
      · exact ⟨t, List.mem_cons_self _ _, Or.inr h⟩
      · exact ⟨u, List.mem_cons_of_mem _ hu, h⟩
    · rintro ⟨u, hu, h⟩
      rcases List.mem_cons.1 hu with rfl | hu
      · rcases h with h | h
        · exact Or.inl h
        · exact Or.inr (Or.inl h)
      · exact Or.inr (Or.inr ⟨u, hu, h⟩)

theorem ruleDiff_eq_nil_iff (bs cs : List String) :
    ruleDiff bs cs = [] ↔ ∀ r, r ∈ bs ↔ r ∈ cs := by
  unfold ruleDiff
  rw [List.append_eq_nil, List.map_eq_nil_iff, List.map_eq_nil_iff,
    List.filter_eq_nil_iff, List.filter_eq_nil_iff]
  constructor
  · rintro ⟨h1, h2⟩ r
    constructor
    · intro hr
      have := h1 r hr
      simpa using this
    · intro hr
      have := h2 r hr
      simpa using this
  · intro h
    constructor
    · intro r hr; simpa using (h r).1 hr
    · intro r hr; simpa using (h r).2 hr

theorem RuleSet.index_of_not_hasKey (m : RuleSet) (k : String) (h : m.hasKey k = false) :
    m.index k = [] := by
  rw [RuleSet.hasKey_eq_false_iff] at h
  simp [RuleSet.index, h]

/-! ## Further properties of the differ -/

/-- C11: end to end, with `before` parsed from `*filter`, `-A INPUT -j DROP`,
`COMMIT` and `after` parsed from `*filter`, `-A INPUT -j DROP`,
`-A INPUT -j ACCEPT`, `COMMIT`, the report is the header of `*filter` followed
by one added-rule event with text `-A INPUT -j ACCEPT`: no table-added or
table-removed event and no removed-rule event. -/
theorem compareRules_end_to_end (order : List String)
    (hord : IsRangeOrder (loadRules scenarioBefore) (loadRules scenarioAfter) order) :
    compareRules order (loadRules scenarioBefore) (loadRules scenarioAfter)
      = [Event.header "*filter", Event.ruleAdded "-A INPUT -j ACCEPT"] ∧
    removedRules (eventsFor (compareRules order (loadRules scenarioBefore)
      (loadRules scenarioAfter)) "*filter") = [] ∧
    addedRules (eventsFor (compareRules order (loadRules scenarioBefore)
      (loadRules scenarioAfter)) "*filter") = ["-A INPUT -j ACCEPT"] := by
  have hall : allTables (loadRules scenarioBefore) (loadRules scenarioAfter) = ["*filter"] := by
    decide
  have ho : order = ["*filter"] := by
    unfold IsRangeOrder at hord
    rw [hall] at hord
    exact List.perm_singleton.1 hord
  subst ho
  decide

/-- Instance of C11 at the only order in which the single table can be visited. -/
theorem compareRules_end_to_end_witness :
    compareRules ["*filter"] (loadRules scenarioBefore) (loadRules scenarioAfter)
      = [Event.header "*filter", Event.ruleAdded "-A INPUT -j ACCEPT"] :=
  (compareRules_end_to_end ["*filter"] (by decide)).1

/-- C13: the report has exactly one header for each table name that is a key
of `before` or of `after` and no header for any other name; it is the sequence,
table by table, of a header followed by the events of that table; and it is
empty exactly when both maps have no table. -/
theorem compareRules_headers (before after : RuleSet) (order : List String)
    (hord : IsRangeOrder before after order) :
    (∀ t, (compareRules order before after).count (Event.header t)
        = if before.hasKey t = true ∨ after.hasKey t = true then 1 else 0) ∧
    blocks (compareRules order before after) order = compareRules order before after ∧
    (∀ e, (compareRules order before after).head? = some e → e.isHeader = true) ∧
    (compareRules order before after = [] ↔ before.keys = [] ∧ after.keys = []) := by
  refine ⟨fun t => ?_, ?_, compareRules_head_isHeader order before after, ?_⟩
  · rw [count_header]
    by_cases hk : before.hasKey t = true ∨ after.hasKey t = true
    · rw [if_pos hk]; exact hord.count_eq_one t hk
    · rw [if_neg hk]
      exact List.count_eq_zero.2 (fun hm => hk ((hord.mem_iff t).1 hm))
  · exact blocks_compareRules order before after order (fun _ h => h)
  · rw [compareRules_eq_nil_iff, ← allTables_eq_nil_iff]
    unfold IsRangeOrder at hord
    constructor
    · intro h; rw [h] at hord; exact List.nil_perm.1 hord
    · intro h; rw [h] at hord; exact List.perm_nil.1 hord

/-- Instance of C13 on the sample maps, and on two empty maps. -/
theorem compareRules_headers_witness :
    (compareRules ["*nat", "*mangle", "*filter"] exBefore exAfter).count (Event.header "*nat") = 1 ∧
    (compareRules ["*nat", "*mangle", "*filter"] exBefore exAfter).count (Event.header "*raw") = 0 ∧
    compareRules [] [] [] = [] := by
  have h := compareRules_headers exBefore exAfter ["*nat", "*mangle", "*filter"] (by decide)
  have h0 := compareRules_headers [] [] [] (by decide)
  exact ⟨(h.1 "*nat").trans (by decide), (h.1 "*raw").trans (by decide),
    h0.2.2.2.2 ⟨rfl, rfl⟩⟩

/-- C15: the report has only headers exactly when the two maps have the same
table names and, for every table, the same set of rule texts. -/
theorem compareRules_only_headers_iff (before after : RuleSet) (order : List String)
    (hord : IsRangeOrder before after order) :
    (∀ e ∈ compareRules order before after, e.isHeader = true) ↔
      (∀ t, before.hasKey t = after.hasKey t) ∧
      (∀ t r, r ∈ before.index t ↔ r ∈ after.index t) := by
  constructor
  · intro h
    have hkeys : ∀ t, before.hasKey t = after.hasKey t := by
      intro t
      cases hb : before.hasKey t <;> cases ha : after.hasKey t
      · rfl
      · have hm := (mem_tableAdded_iff hord t).2 ⟨hb, ha⟩
        have := h _ hm
        simp [Event.isHeader] at this
      · have hm := (mem_tableRemoved_iff hord t).2 ⟨hb, ha⟩
        have := h _ hm
        simp [Event.isHeader] at this
      · rfl
    refine ⟨hkeys, fun t => ?_⟩
    cases hb : before.hasKey t
    · have ha : after.hasKey t = false := by rw [← hkeys t]; exact hb
      rw [RuleSet.index_of_not_hasKey _ _ hb, RuleSet.index_of_not_hasKey _ _ ha]
      intro r; exact Iff.rfl
    · have ha : after.hasKey t = true := by rw [← hkeys t]; exact hb
      have hmem : t ∈ order := (hord.mem_iff t).2 (Or.inl hb)
      have hnil : ruleDiff (before.index t) (after.index t) = [] := by
        rw [List.eq_nil_iff_forall_not_mem]
        intro e he
        have hno := ruleDiff_no_header _ _ e he
        have hin : e ∈ compareRules order before after := by
          rw [mem_compareRules]
          exact ⟨t, hmem, Or.inr (by rw [tableBody_both before after t hb ha]; exact he)⟩
        rw [h e hin] at hno
        cases hno
      exact (ruleDiff_eq_nil_iff _ _).1 hnil
  · rintro ⟨hkeys, hrules⟩ e he
    rw [mem_compareRules] at he
    obtain ⟨t, ht, he | he⟩ := he
    · subst he; rfl
    · have hb : before.hasKey t = true := by
        rcases (hord.mem_iff t).1 ht with h | h
        · exact h
        · rw [hkeys t]; exact h
      have ha : after.hasKey t = true := by rw [← hkeys t]; exact hb
      rw [tableBody_both before after t hb ha, (ruleDiff_eq_nil_iff _ _).2 (hrules t)] at he
      cases he

/-- Instance of C15: same tables and same rule sets (order and multiplicity
differ) give a report of headers only. -/
theorem compareRules_only_headers_iff_witness :
    compareRules ["*filter"]
        [("*filter", ["-A INPUT -j DROP", "-A INPUT -j ACCEPT", "-A INPUT -j DROP"])]
        [("*filter", ["-A INPUT -j ACCEPT", "-A INPUT -j DROP"])]
      = [Event.header "*filter"] ∧
    ((∀ t, RuleSet.hasKey
          [("*filter", ["-A INPUT -j DROP", "-A INPUT -j ACCEPT", "-A INPUT -j DROP"])] t
        = RuleSet.hasKey [("*filter", ["-A INPUT -j ACCEPT", "-A INPUT -j DROP"])] t) ∧
     (∀ t r, r ∈ RuleSet.index
          [("*filter", ["-A INPUT -j DROP", "-A INPUT -j ACCEPT", "-A INPUT -j DROP"])] t
        ↔ r ∈ RuleSet.index [("*filter", ["-A INPUT -j ACCEPT", "-A INPUT -j DROP"])] t)) :=
  ⟨by decide,
   (compareRules_only_headers_iff
    [("*filter", ["-A INPUT -j DROP", "-A INPUT -j ACCEPT", "-A INPUT -j DROP"])]
    [("*filter", ["-A INPUT -j ACCEPT", "-A INPUT -j DROP"])] ["*filter"] (by decide)).1
    (by decide)⟩

/-- C18: the events printed for a table `T` depend only on the entries of `T`
in the two maps (whether `T` is a key, and its sequence): two pairs of maps
that agree on `T` give the same events for `T`, in the same order, whatever
the other tables hold and in whatever order the tables are visited. -/
theorem compareRules_table_local (before1 after1 before2 after2 : RuleSet)
    (o1 o2 : List String) (T : String)
    (h1 : IsRangeOrder before1 after1 o1) (h2 : IsRangeOrder before2 after2 o2)
    (hb : before1.lookup T = before2.lookup T) (ha : after1.lookup T = after2.lookup T) :
    eventsFor (compareRules o1 before1 after1) T
      = eventsFor (compareRules o2 before2 after2) T := by
  have hbk : before1.hasKey T = before2.hasKey T := by simp [RuleSet.hasKey, hb]
  have hak : after1.hasKey T = after2.hasKey T := by simp [RuleSet.hasKey, ha]
  have hbi : before1.index T = before2.index T := by simp [RuleSet.index, hb]
  have hai : after1.index T = after2.index T := by simp [RuleSet.index, ha]
  have hbody : tableBody before1 after1 T = tableBody before2 after2 T := by
    rw [tableBody_cases, tableBody_cases, hbk, hak, hbi, hai]
  by_cases hk : before1.hasKey T = true ∨ after1.hasKey T = true
  · have hk2 : before2.hasKey T = true ∨ after2.hasKey T = true := by
      rw [← hbk, ← hak]; exact hk
    rw [eventsFor_of_rangeOrder h1 T hk, eventsFor_of_rangeOrder h2 T hk2, hbody]
  · have hk2 : ¬ (before2.hasKey T = true ∨ after2.hasKey T = true) := by
      rw [← hbk, ← hak]; exact hk
    rw [eventsFor_of_not_mem o1 _ _ T (fun hm => hk ((h1.mem_iff T).1 hm)),
      eventsFor_of_not_mem o2 _ _ T (fun hm => hk2 ((h2.mem_iff T).1 hm))]

/-- Instance of C18: the sample maps, and maps that keep only their `*filter`
entries, give the same events for `*filter`. -/
theorem compareRules_table_local_witness :
    eventsFor (compareRules ["*nat", "*mangle", "*filter"] exBefore exAfter) "*filter"
      = eventsFor (compareRules ["*filter"]
          [("*filter", ["-A INPUT -s 10.0.0.1 -j DROP", "-A INPUT -j ACCEPT",
            "-A INPUT -s 10.0.0.1 -j DROP", "-A INPUT -j ACCEPT"])]
          [("*filter", ["-A FORWARD -j ACCEPT", "-A INPUT -j ACCEPT"])]) "*filter" :=
  compareRules_table_local exBefore exAfter
    [("*filter", ["-A INPUT -s 10.0.0.1 -j DROP", "-A INPUT -j ACCEPT",
      "-A INPUT -s 10.0.0.1 -j DROP", "-A INPUT -j ACCEPT"])]
    [("*filter", ["-A FORWARD -j ACCEPT", "-A INPUT -j ACCEPT"])]
    ["*nat", "*mangle", "*filter"] ["*filter"] "*filter"
    (by decide) (by decide) (by decide) (by decide)

/-! ## Lemmas on `strings.TrimSpace` -/

theorem trimChars_eq (cs : List Char) :
    trimChars cs = (cs.dropWhile isSpace).rdropWhile isSpace := rfl

theorem dropWhile_rdropWhile_dropWhile (cs : List Char) :
    ((cs.dropWhile isSpace).rdropWhile isSpace).dropWhile isSpace
      = (cs.dropWhile isSpace).rdropWhile isSpace := by
  cases hl : cs.dropWhile isSpace with
  | nil => simp
  | cons x l =>
    have hx : isSpace x = false := by
      have h := List.head_dropWhile_not isSpace cs (by rw [hl]; exact List.cons_ne_nil _ _)
      simpa [hl] using h
    obtain ⟨t, ht⟩ := List.rdropWhile_prefix isSpace (x :: l)
    cases hr : List.rdropWhile isSpace (x :: l) with
    | nil => rfl
    | cons y r =>
      rw [hr] at ht
      have hy : y = x := by
        have := congrArg List.head? ht
        simpa using this
      subst hy
      simp [hx]

theorem trimChars_idem (cs : List Char) : trimChars (trimChars cs) = trimChars cs := by
  rw [trimChars_eq (trimChars cs), trimChars_eq cs, dropWhile_rdropWhile_dropWhile,
    List.rdropWhile_idempotent]

theorem TrimSpace_idem (s : String) : TrimSpace (TrimSpace s) = TrimSpace s := by
  simp [TrimSpace, trimChars_idem]

theorem trimChars_concat_space (xs : List Char) (c : Char) (hc : isSpace c = true) :
    trimChars (xs ++ [c]) = trimChars xs := by
  rw [trimChars_eq, trimChars_eq]
  induction xs with
  | nil => simp [hc]
  | cons x xs ih =>
    by_cases hx : isSpace x = true
    · simpa [hx] using ih
    · have hx' : isSpace x = false := by simpa using hx
      rw [List.cons_append, List.dropWhile_cons_of_neg hx, List.dropWhile_cons_of_neg hx,
        ← List.cons_append, List.rdropWhile_concat_pos _ _ _ hc]

theorem TrimSpace_dropCR (s : String) : TrimSpace (dropCR s) = TrimSpace s := by
  unfold dropCR
  split
  · rename_i h
    have hs : s.data = s.data.dropLast ++ ['\r'] :=
      (List.dropLast_append_getLast? _ h).symm
    show String.mk (trimChars s.data.dropLast) = String.mk (trimChars s.data)
    rw [congrArg trimChars hs, trimChars_concat_space _ _ (by decide)]
  · rfl

theorem loadStep_congr (st : LoadState) (a b : String) (h : TrimSpace a = TrimSpace b) :
    loadStep st a = loadStep st b := by
  simp only [loadStep, h]

theorem loadFrom_map_congr (f : String → String) (hf : ∀ l, TrimSpace (f l) = TrimSpace l)
    (lines : List String) : ∀ st, loadFrom st (lines.map f) = loadFrom st lines := by
  induction lines with
  | nil => intro st; rfl
  | cons l rest ih =>
    intro st
    rw [List.map_cons, loadFrom_cons, loadFrom_cons, loadStep_congr st (f l) l (hf l)]
    exact ih _

/-! ## Lemmas on the stored rules and the keys -/

theorem RuleSet.mem_of_lookup (m : RuleSet) (k : String) (v : List String)
    (h : m.lookup k = some v) : (k, v) ∈ m := by
  induction m with
  | nil => simp [RuleSet.lookup] at h
  | cons p m ih =>
    obtain ⟨k', v'⟩ := p
    by_cases hk : k' = k
    · subst hk
      simp only [RuleSet.lookup, if_true, Option.some.injEq] at h
      subst h
      exact List.mem_cons_self _ _
    · simp only [RuleSet.lookup, hk, if_false] at h
      exact List.mem_cons_of_mem _ (ih h)

theorem RuleSet.mem_assign (m : RuleSet) (k : String) (v : List String)
    (e : String × List String) (h : e ∈ m.assign k v) : e ∈ m ∨ e = (k, v) := by
  induction m with
  | nil =>
    simp only [RuleSet.assign, List.mem_singleton] at h
    exact Or.inr h
  | cons p m ih =>
    obtain ⟨k', v'⟩ := p
    by_cases hk : k' = k
    · simp only [RuleSet.assign, hk, if_true, List.mem_cons] at h
      rcases h with h | h
      · exact Or.inr h
      · exact Or.inl (List.mem_cons_of_mem _ h)
    · simp only [RuleSet.assign, hk, if_false, List.mem_cons] at h
      rcases h with h | h
      · exact Or.inl (h ▸ List.mem_cons_self _ _)
      · rcases ih h with h | h
        · exact Or.inl (List.mem_cons_of_mem _ h)
        · exact Or.inr h

theorem RuleSet.mem_index (m : RuleSet) (k r : String) (h : r ∈ m.index k) :
    ∃ rs, (k, rs) ∈ m ∧ r ∈ rs := by
  cases hl : m.lookup k with
  | none => simp [RuleSet.index, hl] at h
  | some v =>
    refine ⟨v, RuleSet.mem_of_lookup m k v hl, ?_⟩
    simpa [RuleSet.index, hl] using h

/-- The entries of the map satisfy `P` rule by rule. -/
theorem stored_loadFrom (P : String → Prop)
    (hP : ∀ raw, IsRuleLine raw → P (TrimSpace raw)) (lines : List String) :
    ∀ st : LoadState, (∀ e ∈ st.rules, ∀ r ∈ e.2, P r) →
      ∀ e ∈ (loadFrom st lines).rules, ∀ r ∈ e.2, P r := by
  induction lines with
  | nil => intro st h; exact h
  | cons raw rest ih =>
    intro st h
    rw [loadFrom_cons]
    apply ih
    rcases line_cases raw with hk | hk | hk | hk
    · rw [loadStep_skipped st raw hk]; exact h
    · rw [loadStep_table st raw hk]
      intro e he r hr
      rcases RuleSet.mem_assign _ _ _ e he with he | he
      · exact h e he r hr
      · subst he; cases hr
    · rw [loadStep_commit st raw hk]; exact h
    · by_cases hc : st.currentChain = ""
      · rw [loadStep_rule_closed st raw hk hc]; exact h
      · rw [loadStep_rule_open st raw hk hc]
        intro e he r hr
        rcases RuleSet.mem_assign _ _ _ e he with he | he
        · exact h e he r hr
        · subst he
          rcases List.mem_append.1 hr with hr | hr
          · obtain ⟨rs, hrs, hr⟩ := RuleSet.mem_index _ _ _ hr
            exact h _ hrs r hr
          · rw [List.mem_singleton.1 hr]; exact hP raw hk

/-- One step of the loop adds the name of a table line to the keys and
nothing else, and keeps `currentChain` among the keys. -/
theorem loadStep_keys (st : LoadState) (raw : String)
    (hinv : st.currentChain ≠ "" → st.rules.hasKey st.currentChain = true) :
    ((loadStep st raw).currentChain ≠ "" →
        (loadStep st raw).rules.hasKey (loadStep st raw).currentChain = true) ∧
    ∀ k, (loadStep st raw).rules.hasKey k = true
      ↔ st.rules.hasKey k = true ∨ (IsTableLine raw ∧ TrimSpace raw = k) := by
  rcases line_cases raw with hk | hk | hk | hk
  · rw [loadStep_skipped st raw hk]
    refine ⟨hinv, fun k => ?_⟩
    simp [isSkippedLine_not_table hk]
  · rw [loadStep_table st raw hk]
    refine ⟨fun _ => by simp [RuleSet.hasKey_assign], fun k => ?_⟩
    simp only [RuleSet.hasKey_assign, Bool.or_eq_true, decide_eq_true_eq, hk, true_and]
    constructor
    · rintro (h | h)
      · exact Or.inr h.symm
      · exact Or.inl h
    · rintro (h | h)
      · exact Or.inr h
      · exact Or.inl h.symm
  · rw [loadStep_commit st raw hk]
    refine ⟨fun h => absurd rfl h, fun k => ?_⟩
    simp [isCommitLine_not_table hk]
  · by_cases hc : st.currentChain = ""
    · rw [loadStep_rule_closed st raw hk hc]
      refine ⟨hinv, fun k => ?_⟩
      simp [isRuleLine_not_table hk]
    · rw [loadStep_rule_open st raw hk hc]
      refine ⟨fun _ => by simp [RuleSet.hasKey_assign], fun k => ?_⟩
      simp only [RuleSet.hasKey_assign, Bool.or_eq_true, decide_eq_true_eq,
        isRuleLine_not_table hk, false_and, or_false]
      constructor
      · rintro (h | h)
        · rw [h]; exact hinv hc
        · exact h
      · exact fun h => Or.inr h

theorem keys_loadFrom (lines : List String) :
    ∀ st : LoadState, (st.currentChain ≠ "" → st.rules.hasKey st.currentChain = true) →
      ∀ k, (loadFrom st lines).rules.hasKey k = true
        ↔ st.rules.hasKey k = true ∨ ∃ l ∈ lines, IsTableLine l ∧ TrimSpace l = k := by
  induction lines with
  | nil => intro st _ k; simp [loadFrom]
  | cons raw rest ih =>
    intro st hinv k
    obtain ⟨hinv', hstep⟩ := loadStep_keys st raw hinv
    rw [loadFrom_cons, ih _ hinv' k, hstep k]
    simp only [List.mem_cons, exists_eq_or_imp]
    tauto

theorem stripIgnorable_cons (raw : String) (rest : List String) :
    stripIgnorable (raw :: rest)
      = if IsSkippedLine raw then stripIgnorable rest
        else TrimSpace raw :: stripIgnorable rest := by
  unfold stripIgnorable IsSkippedLine
  rw [List.map_cons, List.filter_cons]
  by_cases h1 : TrimSpace raw = ""
  · simp [h1]
  · by_cases h2 : HasPrefix (TrimSpace raw) "#" = true
    · simp [h1, h2]
    · simp [h1, h2]

theorem loadFrom_stripIgnorable (lines : List String) :
    ∀ st, loadFrom st (stripIgnorable lines) = loadFrom st lines := by
  induction lines with
  | nil => intro st; rfl
  | cons raw rest ih =>
    intro st
    rw [stripIgnorable_cons, loadFrom_cons]
    by_cases hs : IsSkippedLine raw
    · rw [if_pos hs, loadStep_skipped st raw hs]
      exact ih st
    · rw [if_neg hs, loadFrom_cons, loadStep_congr st (TrimSpace raw) raw (TrimSpace_idem raw)]
      exact ih _

theorem utf8ByteSize_replicate (n : Nat) :
    (String.mk (List.replicate n 'a')).utf8ByteSize = n := by
  show String.utf8ByteSize.go (List.replicate n 'a') = n
  induction n with
  | zero => rfl
  | succ n ih =>
    rw [List.replicate_succ, String.utf8ByteSize.go, ih]
    rfl

theorem scanLines_of_short (lines : List String)
    (h : ∀ l ∈ lines, l.utf8ByteSize < MaxScanTokenSize) :
    scanLines lines = (lines.map dropCR, false) := by
  induction lines with
  | nil => rfl
  | cons l rest ih =>
    have hl : ¬ MaxScanTokenSize ≤ l.utf8ByteSize :=
      Nat.not_le.2 (h l (List.mem_cons_self _ _))
    rw [scanLines, if_neg hl, ih (fun x hx => h x (List.mem_cons_of_mem _ hx))]
    rfl

theorem scanLines_stopped_iff (lines : List String) :
    (scanLines lines).2 = true ↔ ∃ l ∈ lines, MaxScanTokenSize ≤ l.utf8ByteSize := by
  induction lines with
  | nil => simp [scanLines]
  | cons l rest ih =>
    by_cases hl : MaxScanTokenSize ≤ l.utf8ByteSize
    · simp [scanLines, hl]
    · have hl' : ¬ 65536 ≤ l.utf8ByteSize := hl
      simp [scanLines, hl, hl', ih]

theorem loadRules_map_dropCR (lines : List String) :
    loadRules (lines.map dropCR) = loadRules lines := by
  unfold loadRules loadLoop
  exact congrArg LoadState.rules (loadFrom_map_congr dropCR TrimSpace_dropCR lines _)

/-! ## Further properties of the parser -/

/-- C12, as stated, fails: a file that opens and is read to its end, with a
line of 65536 bytes inside its `*filter` section, makes `loadRules` return the
error `bufio.ErrTooLong` (together with the map parsed up to that line). -/
theorem loadRules_long_line_counterexample :
    longLine.utf8ByteSize = 65536 ∧
    loadRulesFile (File.readable ["*filter", longLine, "COMMIT"])
      = (some [("*filter", [])], some LoadError.tooLong) := by
  have hlen : longLine.utf8ByteSize = 65536 := utf8ByteSize_replicate MaxScanTokenSize
  have h1 : ¬ MaxScanTokenSize ≤ "*filter".utf8ByteSize := by decide
  have h2 : MaxScanTokenSize ≤ longLine.utf8ByteSize := by rw [hlen]; decide
  refine ⟨hlen, ?_⟩
  have hscan : scanLines ["*filter", longLine, "COMMIT"] = ([dropCR "*filter"], true) := by
    rw [scanLines, if_neg h1, scanLines, if_pos h2]
  rw [loadRulesFile, hscan]
  decide

/-- C12, amended: for a file that opens, is read to its end and has only lines
shorter than `bufio.MaxScanTokenSize` (65536 bytes), whatever its lines hold,
`loadRules` returns the map of its lines and a nil error; and an error is
returned exactly when the file cannot be opened, a read fails, or a line has
`MaxScanTokenSize` bytes or more. -/
theorem loadRulesFile_no_error (lines : List String)
    (hshort : ∀ l ∈ lines, l.utf8ByteSize < MaxScanTokenSize) :
    loadRulesFile (File.readable lines) = (some (loadRules lines), none) ∧
    (∀ f : File, (loadRulesFile f).2 ≠ none ↔
      (f = File.missing ∨ (∃ ls, f = File.failing ls) ∨
        ∃ ls, f = File.readable ls ∧ ∃ l ∈ ls, MaxScanTokenSize ≤ l.utf8ByteSize)) := by
  constructor
  · rw [loadRulesFile, scanLines_of_short lines hshort]
    simp [loadRules_map_dropCR]
  · intro f
    cases f with
    | missing => simp [loadRulesFile]
    | readable ls =>
      by_cases h : (scanLines ls).2 = true
      · simp [loadRulesFile, h, (scanLines_stopped_iff ls).1 h]
      · have h' : ¬ ∃ l ∈ ls, MaxScanTokenSize ≤ l.utf8ByteSize :=
          fun hx => h ((scanLines_stopped_iff ls).2 hx)
        have hf : (scanLines ls).2 = false := by simpa using h
        have hnone : (loadRulesFile (File.readable ls)).2 = none := by
          simp [loadRulesFile, hf]
        constructor
        · intro hne; exact absurd hnone hne
        · rintro (hf | ⟨_, hf⟩ | ⟨ls', hf, hx⟩)
          · cases hf
          · cases hf
          · injection hf with hf; subst hf; exact absurd hx h'
    | failing ls =>
      by_cases h : (scanLines ls).2 = true <;> simp [loadRulesFile, h]

/-- Instance of the amended C12: text outside any section, a `COMMIT` with no
open section, carriage returns and a section that is never closed. -/
theorem loadRulesFile_no_error_witness :
    loadRulesFile (File.readable ["-A OUTPUT -j DROP", "COMMIT", "*filter\r", "anything at all\r"])
      = (some [("*filter", ["anything at all"])], none) :=
  ((loadRulesFile_no_error ["-A OUTPUT -j DROP", "COMMIT", "*filter\r", "anything at all\r"]
    (by decide)).1).trans (by decide)

/-- C14: a rule string stored in the sequence of any table is not empty, does
not start with `#`, is whitespace-trimmed, and does not start with `*` or with
`COMMIT`. -/
theorem loadRules_stored_rules (lines : List String) (k r : String)
    (hr : r ∈ (loadRules lines).index k) :
    r ≠ "" ∧ HasPrefix r "#" = false ∧ TrimSpace r = r ∧
      HasPrefix r "*" = false ∧ HasPrefix r "COMMIT" = false := by
  obtain ⟨rs, hrs, hr'⟩ := RuleSet.mem_index _ _ _ hr
  have h := stored_loadFrom
    (fun r => r ≠ "" ∧ HasPrefix r "#" = false ∧ TrimSpace r = r ∧
      HasPrefix r "*" = false ∧ HasPrefix r "COMMIT" = false)
    (fun raw hraw => ⟨hraw.1, hraw.2.1, TrimSpace_idem raw, hraw.2.2.1, hraw.2.2.2⟩)
    lines { rules := [], currentChain := "" } (fun e he => by cases he)
  exact h (k, rs) hrs r hr'

/-- Instance of C14: the one rule stored for `*filter`, read from a line with
surrounding white space among comment and blank lines. -/
theorem loadRules_stored_rules_witness :
    "-A INPUT -j DROP" ∈ (loadRules ["*filter", "# note", "", "  -A INPUT -j DROP \t", "COMMIT"]).index
      "*filter" ∧
    TrimSpace "-A INPUT -j DROP" = "-A INPUT -j DROP" :=
  ⟨by decide,
   (loadRules_stored_rules ["*filter", "# note", "", "  -A INPUT -j DROP \t", "COMMIT"]
    "*filter" "-A INPUT -j DROP" (by decide)).2.2.1⟩

/-- On the lines delivered by the scanner: the keys of the map are exactly the
trimmed lines that start with `*`; every key starts with `*`; and a table line
whose section has no rule line, and whose name no later table line repeats,
maps to the empty sequence. -/
theorem loadRules_keys (lines : List String) :
    (∀ k, k ∈ (loadRules lines).keys ↔ ∃ l ∈ lines, IsTableLine l ∧ TrimSpace l = k) ∧
    (∀ k, k ∈ (loadRules lines).keys → HasPrefix k "*" = true) ∧
    (∀ pre tline post, lines = pre ++ tline :: post → IsTableLine tline →
      (∀ l ∈ post, IsTableLine l → TrimSpace l ≠ TrimSpace tline) →
      sectionRules post = [] →
      (loadRules lines).lookup (TrimSpace tline) = some []) := by
  have hkeys : ∀ k, k ∈ (loadRules lines).keys
      ↔ ∃ l ∈ lines, IsTableLine l ∧ TrimSpace l = k := by
    intro k
    rw [← RuleSet.hasKey_iff_mem_keys]
    have h := keys_loadFrom lines { rules := [], currentChain := "" }
      (fun h => absurd rfl h) k
    simpa [RuleSet.hasKey, RuleSet.lookup] using h
  refine ⟨hkeys, ?_, ?_⟩
  · intro k hk
    obtain ⟨l, _, hl, rfl⟩ := (hkeys k).1 hk
    exact hl
  · intro pre tline post hlines ht hlast hsec
    subst hlines
    unfold loadRules
    rw [loadLoop_append, loadFrom_cons, loadStep_table _ tline ht]
    have h := lookup_loadFrom_open (TrimSpace tline) (isTableLine_name_ne_empty ht) post
      { rules := (loadLoop pre).rules.assign (TrimSpace tline) [],
        currentChain := TrimSpace tline }
      [] rfl (RuleSet.lookup_assign_same _ _ _) hlast
    rw [hsec] at h
    simpa using h

/-- On the lines delivered by the scanner: the loop builds the same map, and
ends in the same state, when every line is trimmed and the lines that are
blank or start with `#` after trimming are deleted. -/
theorem loadRules_stripIgnorable (lines : List String) :
    loadRules (stripIgnorable lines) = loadRules lines ∧
    loadLoop (stripIgnorable lines) = loadLoop lines := by
  have h : loadLoop (stripIgnorable lines) = loadLoop lines :=
    loadFrom_stripIgnorable lines _
  exact ⟨congrArg LoadState.rules h, h⟩

/-! ## Lemmas on the whole function -/

/-- A file of short lines that is read to its end: the scanner delivers every
line, and the function returns the map of the loop and a nil error. -/
theorem loadRulesFile_of_short (lines : List String)
    (hshort : ∀ l ∈ lines, l.utf8ByteSize < MaxScanTokenSize) :
    loadRulesFile (File.readable lines) = (some (loadRules lines), none) := by
  rw [loadRulesFile, scanLines_of_short lines hshort]
  simp [loadRules_map_dropCR]

/-- Whatever the file, the returned map has no entry under the empty key. -/
theorem loadRulesFile_no_empty_key (f : File) (m : RuleSet)
    (h : (loadRulesFile f).1 = some m) : m.hasKey "" = false := by
  have hkey : ∀ lines, (loadRules lines).hasKey "" = false := by
    intro lines
    rw [RuleSet.hasKey_eq_false_iff]
    exact no_empty_key_loadFrom lines _ rfl
  cases f with
  | missing => simp [loadRulesFile] at h
  | readable ls =>
    simp only [loadRulesFile, Option.some.injEq] at h
    rw [← h]; exact hkey _
  | failing ls =>
    simp only [loadRulesFile, Option.some.injEq] at h
    rw [← h]; exact hkey _

theorem utf8ByteSize_eq_go (s : String) : s.utf8ByteSize = String.utf8ByteSize.go s.data := by
  cases s; rfl

theorem utf8ByteSize_go_sublist {xs ys : List Char} (h : xs.Sublist ys) :
    String.utf8ByteSize.go xs ≤ String.utf8ByteSize.go ys := by
  induction h with
  | slnil => exact Nat.le_refl _
  | cons a _ ih =>
    simp only [String.utf8ByteSize.go]
    omega
  | cons₂ a _ ih =>
    simp only [String.utf8ByteSize.go]
    omega

theorem trimChars_sublist (cs : List Char) : (trimChars cs).Sublist cs := by
  rw [trimChars_eq]
  exact (List.rdropWhile_prefix isSpace _).sublist.trans (List.dropWhile_sublist isSpace)

/-- Trimming does not lengthen a line. -/
theorem utf8ByteSize_TrimSpace_le (s : String) :
    (TrimSpace s).utf8ByteSize ≤ s.utf8ByteSize := by
  rw [utf8ByteSize_eq_go, utf8ByteSize_eq_go]
  exact utf8ByteSize_go_sublist (trimChars_sublist s.data)

theorem short_stripIgnorable (lines : List String)
    (hshort : ∀ l ∈ lines, l.utf8ByteSize < MaxScanTokenSize) :
    ∀ l ∈ stripIgnorable lines, l.utf8ByteSize < MaxScanTokenSize := by
  intro l hl
  unfold stripIgnorable at hl
  obtain ⟨l0, hl0, rfl⟩ := List.mem_map.1 (List.mem_filter.1 hl).1
  exact Nat.lt_of_le_of_lt (utf8ByteSize_TrimSpace_le l0) (hshort l0 hl0)

theorem trimChars_of_no_space (cs : List Char) (h : ∀ c ∈ cs, isSpace c = false) :
    trimChars cs = cs := by
  have h1 : cs.dropWhile isSpace = cs := by
    cases cs with
    | nil => rfl
    | cons c cs =>
      have hc : ¬ isSpace c = true := by
        rw [h c (List.mem_cons_self _ _)]; exact Bool.false_ne_true
      exact List.dropWhile_cons_of_neg hc
  rw [trimChars_eq, h1, List.rdropWhile_eq_self_iff]
  intro hl
  rw [h _ (List.getLast_mem hl)]
  exact Bool.false_ne_true

theorem longLine_size : longLine.utf8ByteSize = 65536 :=
  utf8ByteSize_replicate MaxScanTokenSize

theorem longLine_too_long : MaxScanTokenSize ≤ longLine.utf8ByteSize := by
  rw [longLine_size]; decide

theorem TrimSpace_longLine : TrimSpace longLine = longLine := by
  show String.mk (trimChars (List.replicate MaxScanTokenSize 'a')) = _
  rw [trimChars_of_no_space]
  · rfl
  · intro c hc
    rw [(List.mem_replicate.1 hc).2]
    decide

theorem longLine_data : longLine.data = 'a' :: List.replicate 65535 'a' := rfl

/-- The long line of letters is a rule line. -/
theorem isRuleLine_longLine : IsRuleLine longLine := by
  unfold IsRuleLine
  rw [TrimSpace_longLine]
  refine ⟨?_, ?_, ?_, ?_⟩
  · intro e
    have := congrArg String.data e
    rw [longLine_data] at this
    cases this
  · simp [HasPrefix, longLine_data, List.isPrefixOf]
  · simp [HasPrefix, longLine_data, List.isPrefixOf]
  · simp [HasPrefix, longLine_data, List.isPrefixOf]

theorem blankLine_size : blankLine.utf8ByteSize = 65536 := by
  show String.utf8ByteSize.go (List.replicate MaxScanTokenSize ' ') = 65536
  have h : ∀ n, String.utf8ByteSize.go (List.replicate n ' ') = n := by
    intro n
    induction n with
    | zero => rfl
    | succ n ih =>
      rw [List.replicate_succ, String.utf8ByteSize.go, ih]
      rfl
  exact h MaxScanTokenSize

theorem blankLine_too_long : MaxScanTokenSize ≤ blankLine.utf8ByteSize := by
  rw [blankLine_size]; decide

/-- The long blank line is empty after trimming. -/
theorem isSkippedLine_blankLine : IsSkippedLine blankLine := by
  left
  show String.mk (trimChars (List.replicate MaxScanTokenSize ' ')) = ""
  have h : (List.replicate MaxScanTokenSize ' ').dropWhile isSpace = [] := by
    rw [List.dropWhile_eq_nil_iff]
    intro c hc
    rw [(List.mem_replicate.1 hc).2]
    decide
  rw [trimChars_eq, h]
  rfl

theorem scanLines_cons_short (l : String) (rest : List String)
    (h : l.utf8ByteSize < MaxScanTokenSize) :
    scanLines (l :: rest) = (dropCR l :: (scanLines rest).1, (scanLines rest).2) := by
  rw [scanLines, if_neg (Nat.not_le.2 h)]

theorem scanLines_cons_long (l : String) (rest : List String)
    (h : MaxScanTokenSize ≤ l.utf8ByteSize) : scanLines (l :: rest) = ([], true) := by
  rw [scanLines, if_pos h]

/-! ## Properties of the whole function -/

/-- C2, amended: in a file that is read to its end and whose lines are all
shorter than `bufio.MaxScanTokenSize` (65536 bytes), a table line `*T` resets
the entry of `*T`: the function returns a nil error and a map in which the
sequence of `*T` is the sequence of rule lines of the last `*T` section only
(the rule lines between the last `*T` line and the next table line or `COMMIT`
line), whatever earlier `*T` sections held. -/
theorem loadRulesFile_last_section (pre post : List String) (tline : String)
    (hshort : ∀ l ∈ pre ++ tline :: post, l.utf8ByteSize < MaxScanTokenSize)
    (ht : IsTableLine tline)
    (hlast : ∀ l ∈ post, IsTableLine l → TrimSpace l ≠ TrimSpace tline) :
    ∃ m, loadRulesFile (File.readable (pre ++ tline :: post)) = (some m, none) ∧
      m.lookup (TrimSpace tline) = some (sectionRules post) :=
  ⟨loadRules (pre ++ tline :: post), loadRulesFile_of_short _ hshort,
    loadRules_last_section pre post tline ht hlast⟩

/-- Instance of the amended C2: a second `*filter` section after a first one. -/
theorem loadRulesFile_last_section_witness :
    ∃ m, loadRulesFile (File.readable (["*filter", "-A INPUT -j DROP", "COMMIT"]
        ++ "*filter" :: ["# second dump", "-A INPUT -j ACCEPT", "COMMIT", "*nat",
          "-A PREROUTING -j DNAT"])) = (some m, none) ∧
      m.lookup "*filter" = some ["-A INPUT -j ACCEPT"] :=
  (loadRulesFile_last_section ["*filter", "-A INPUT -j DROP", "COMMIT"]
    ["# second dump", "-A INPUT -j ACCEPT", "COMMIT", "*nat", "-A PREROUTING -j DNAT"] "*filter"
    (by decide) (by decide) (by decide)).imp
    (fun _ h => ⟨h.1, h.2.trans (by decide)⟩)

/-- C4, as stated, fails: in the single section `*filter`, `-A INPUT -j DROP`,
a rule line of 65536 bytes, `COMMIT`, the scanner stops at the long rule line;
the function returns `bufio.ErrTooLong` and a map in which `*filter` holds the
first rule only. -/
theorem loadRulesFile_long_rule_counterexample :
    IsTableLine "*filter" ∧ IsRuleLine "-A INPUT -j DROP" ∧ IsRuleLine longLine ∧
    IsCommitLine "COMMIT" ∧
    loadRulesFile (File.readable ("*filter" :: ["-A INPUT -j DROP", longLine] ++ ["COMMIT"]))
      = (some [("*filter", ["-A INPUT -j DROP"])], some LoadError.tooLong) := by
  refine ⟨by decide, by decide, isRuleLine_longLine, by decide, ?_⟩
  have hscan : scanLines ("*filter" :: ["-A INPUT -j DROP", longLine] ++ ["COMMIT"])
      = ([dropCR "*filter", dropCR "-A INPUT -j DROP"], true) := by
    show scanLines ["*filter", "-A INPUT -j DROP", longLine, "COMMIT"] = _
    rw [scanLines_cons_short _ _ (by decide), scanLines_cons_short _ _ (by decide),
      scanLines_cons_long _ _ longLine_too_long]
  rw [loadRulesFile, hscan]
  decide

/-- C4, amended: in a file that is read to its end and whose lines are all
shorter than `bufio.MaxScanTokenSize` (65536 bytes), a rule line read while
table `T` is open (the most recently opened table, not yet closed by a `COMMIT`
line) is appended, trimmed, to the sequence of `T`, and the entry of every
other table is left as it is; and a file made of a single section `*T`, `r1`,
..., `rn`, `COMMIT` of such lines gives a nil error and the map with the one
entry of `*T`, holding the trimmed rule lines in file order. -/
theorem loadRulesFile_stores_rule (pre : List String) (raw T : String)
    (tline commit : String) (rs : List String)
    (hshort : ∀ l ∈ pre ++ [raw], l.utf8ByteSize < MaxScanTokenSize)
    (hsection : ∀ l ∈ tline :: rs ++ [commit], l.utf8ByteSize < MaxScanTokenSize)
    (hopen : openTable pre = some T) (hrule : IsRuleLine raw)
    (ht : IsTableLine tline) (hrs : ∀ r ∈ rs, IsRuleLine r) (hc : IsCommitLine commit) :
    (∃ m0 m1, loadRulesFile (File.readable pre) = (some m0, none) ∧
      loadRulesFile (File.readable (pre ++ [raw])) = (some m1, none) ∧
      m1.lookup T = some (m0.index T ++ [TrimSpace raw]) ∧
      ∀ k, k ≠ T → m1.lookup k = m0.lookup k) ∧
    loadRulesFile (File.readable (tline :: rs ++ [commit]))
      = (some [(TrimSpace tline, rs.map TrimSpace)], none) := by
  have h := loadRules_stores_rule pre raw T tline commit rs hopen hrule ht hrs hc
  have hpre : ∀ l ∈ pre, l.utf8ByteSize < MaxScanTokenSize :=
    fun l hl => hshort l (List.mem_append_left _ hl)
  refine ⟨⟨loadRules pre, loadRules (pre ++ [raw]), loadRulesFile_of_short _ hpre,
    loadRulesFile_of_short _ hshort, h.1, h.2.1⟩, ?_⟩
  rw [loadRulesFile_of_short _ hsection, h.2.2]

/-- Instance of the amended C4: a rule line read while `*filter` is open, and
a single section. -/
theorem loadRulesFile_stores_rule_witness :
    (∃ m0 m1,
      loadRulesFile (File.readable ["# generated", "*nat", "COMMIT", "  *filter",
        ":INPUT ACCEPT [0:0]"]) = (some m0, none) ∧
      loadRulesFile (File.readable (["# generated", "*nat", "COMMIT", "  *filter",
        ":INPUT ACCEPT [0:0]"] ++ ["\t-A INPUT -j DROP  "])) = (some m1, none) ∧
      m1.lookup "*filter" = some (m0.index "*filter" ++ [TrimSpace "\t-A INPUT -j DROP  "]) ∧
      ∀ k, k ≠ "*filter" → m1.lookup k = m0.lookup k) ∧
    loadRulesFile (File.readable ("*filter" :: [" -A INPUT -j DROP", "-A INPUT -j ACCEPT "]
        ++ ["COMMIT"]))
      = (some [("*filter", ["-A INPUT -j DROP", "-A INPUT -j ACCEPT"])], none) := by
  have h := loadRulesFile_stores_rule
    ["# generated", "*nat", "COMMIT", "  *filter", ":INPUT ACCEPT [0:0]"]
    "\t-A INPUT -j DROP  " "*filter" "*filter" "COMMIT"
    [" -A INPUT -j DROP", "-A INPUT -j ACCEPT "]
    (by decide) (by decide) (by decide) (by decide) (by decide) (by decide) (by decide)
  exact ⟨h.1, h.2.trans (by decide)⟩

/-- C5, as stated, fails: a line of 65536 bytes that is not a table line, read
before any table line, is not discarded without error; the function returns
`bufio.ErrTooLong` and an empty map, while the same file without that line
gives a nil error and the entry of `*filter`. -/
theorem loadRulesFile_long_outside_counterexample :
    ¬ IsTableLine longLine ∧
    loadRulesFile (File.readable ([] ++ longLine :: ["*filter", "-A INPUT -j DROP", "COMMIT"]))
      = (some [], some LoadError.tooLong) ∧
    loadRulesFile (File.readable ([] ++ ["*filter", "-A INPUT -j DROP", "COMMIT"]))
      = (some [("*filter", ["-A INPUT -j DROP"])], none) := by
  refine ⟨isRuleLine_not_table isRuleLine_longLine, ?_, by decide⟩
  have hscan : scanLines ([] ++ longLine :: ["*filter", "-A INPUT -j DROP", "COMMIT"])
      = ([], true) := by
    show scanLines (longLine :: ["*filter", "-A INPUT -j DROP", "COMMIT"]) = _
    exact scanLines_cons_long _ _ longLine_too_long
  rw [loadRulesFile, hscan]
  decide

/-- C5, amended: in a file that is read to its end and whose lines are all
shorter than `bufio.MaxScanTokenSize` (65536 bytes), a line that is not a table
line and is read while no table is open (before any table line, or after a
`COMMIT` line and before the next table line) is discarded without error: the
function returns a nil error and the same results as for the file without that
line; and whatever the file, the returned map has no entry whose key is the
empty string. -/
theorem loadRulesFile_discards_outside (pre post : List String) (raw : String)
    (hshort : ∀ l ∈ pre ++ raw :: post, l.utf8ByteSize < MaxScanTokenSize)
    (hclosed : (∀ l ∈ pre, ¬ IsTableLine l) ∨
      (∃ a c b, pre = a ++ c :: b ∧ IsCommitLine c ∧ ∀ l ∈ b, ¬ IsTableLine l))
    (hraw : ¬ IsTableLine raw) :
    loadRulesFile (File.readable (pre ++ raw :: post))
      = loadRulesFile (File.readable (pre ++ post)) ∧
    (loadRulesFile (File.readable (pre ++ raw :: post))).2 = none ∧
    (∀ (f : File) (m : RuleSet), (loadRulesFile f).1 = some m → m.hasKey "" = false) := by
  have hshort' : ∀ l ∈ pre ++ post, l.utf8ByteSize < MaxScanTokenSize := by
    intro l hl
    rcases List.mem_append.1 hl with h | h
    · exact hshort l (List.mem_append_left _ h)
    · exact hshort l (List.mem_append_right _ (List.mem_cons_of_mem _ h))
  have h := loadRules_discards_outside pre post raw hclosed hraw
  refine ⟨?_, ?_, loadRulesFile_no_empty_key⟩
  · rw [loadRulesFile_of_short _ hshort, loadRulesFile_of_short _ hshort', h.2.1]
  · rw [loadRulesFile_of_short _ hshort]

/-- Instance of the amended C5: a rule line after `COMMIT`, and a rule line
before any table line. -/
theorem loadRulesFile_discards_outside_witness :
    loadRulesFile (File.readable (["-A INPUT -j DROP", "*filter", "-A INPUT -j ACCEPT",
        "COMMIT", ""] ++ "-A FORWARD -j DROP" :: ["*nat", "-A PREROUTING -j DNAT"]))
      = (some [("*filter", ["-A INPUT -j ACCEPT"]), ("*nat", ["-A PREROUTING -j DNAT"])], none) ∧
    loadRulesFile (File.readable ([] ++ "-A INPUT -j DROP" :: ["*filter", "COMMIT"]))
      = (some [("*filter", [])], none) := by
  have h1 := loadRulesFile_discards_outside
    ["-A INPUT -j DROP", "*filter", "-A INPUT -j ACCEPT", "COMMIT", ""]
    ["*nat", "-A PREROUTING -j DNAT"] "-A FORWARD -j DROP" (by decide)
    (Or.inr ⟨["-A INPUT -j DROP", "*filter", "-A INPUT -j ACCEPT"], "COMMIT", [""],
      rfl, by decide, by decide⟩) (by decide)
  have h2 := loadRulesFile_discards_outside [] ["*filter", "COMMIT"] "-A INPUT -j DROP"
    (by decide) (Or.inl (by decide)) (by decide)
  exact ⟨h1.1.trans (by decide), h2.1.trans (by decide)⟩

/-- C16, as stated, fails: in the file `*filter`, a line of 65536 bytes,
`*nat`, the scanner stops at the long line; the trimmed line `*nat` starts
with `*` and is not a key of the returned map, whose only key is `*filter`. -/
theorem loadRulesFile_long_before_table_counterexample :
    IsTableLine "*nat" ∧ TrimSpace "*nat" = "*nat" ∧
    loadRulesFile (File.readable ["*filter", longLine, "*nat"])
      = (some [("*filter", [])], some LoadError.tooLong) ∧
    "*nat" ∉ RuleSet.keys [("*filter", [])] := by
  refine ⟨by decide, by decide, ?_, by decide⟩
  have hscan : scanLines ["*filter", longLine, "*nat"] = ([dropCR "*filter"], true) := by
    rw [scanLines_cons_short _ _ (by decide), scanLines_cons_long _ _ longLine_too_long]
  rw [loadRulesFile, hscan]
  decide

/-- C16, amended: for a file that is read to its end and whose lines are all
shorter than `bufio.MaxScanTokenSize` (65536 bytes), the function returns a nil
error and a map whose keys are exactly the trimmed lines that start with `*`;
every key starts with `*`; and a table line whose section has no rule line,
and whose name no later table line repeats, maps to the empty sequence. -/
theorem loadRulesFile_keys (lines : List String)
    (hshort : ∀ l ∈ lines, l.utf8ByteSize < MaxScanTokenSize) :
    ∃ m, loadRulesFile (File.readable lines) = (some m, none) ∧
      (∀ k, k ∈ m.keys ↔ ∃ l ∈ lines, IsTableLine l ∧ TrimSpace l = k) ∧
      (∀ k, k ∈ m.keys → HasPrefix k "*" = true) ∧
      (∀ pre tline post, lines = pre ++ tline :: post → IsTableLine tline →
        (∀ l ∈ post, IsTableLine l → TrimSpace l ≠ TrimSpace tline) →
        sectionRules post = [] →
        m.lookup (TrimSpace tline) = some []) :=
  ⟨loadRules lines, loadRulesFile_of_short lines hshort, loadRules_keys lines⟩

/-- Instance of the amended C16: two table lines, neither followed by a rule
line. -/
theorem loadRulesFile_keys_witness :
    ∃ m, loadRulesFile (File.readable ["# dump", "  *filter", "COMMIT", "-A INPUT -j DROP",
        "*nat"]) = (some m, none) ∧
      ("*filter" ∈ m.keys ∧ "*nat" ∈ m.keys ∧ "-A INPUT -j DROP" ∉ m.keys) ∧
      m.lookup "*filter" = some [] :=
  (loadRulesFile_keys ["# dump", "  *filter", "COMMIT", "-A INPUT -j DROP", "*nat"]
    (by decide)).imp
    (fun _ h => ⟨h.1,
      ⟨(h.2.1 "*filter").2 ⟨"  *filter", by decide, by decide, by decide⟩,
       (h.2.1 "*nat").2 ⟨"*nat", by decide, by decide, by decide⟩,
       fun hk => absurd (h.2.2.1 _ hk) (by decide)⟩,
      h.2.2.2 ["# dump"] "  *filter" ["COMMIT", "-A INPUT -j DROP", "*nat"] rfl
        (by decide) (by decide) (by decide)⟩)

/-- C17, as stated, fails: with a blank line of 65536 spaces inside the
`*filter` section, the scanner stops at the blank line and the function returns
`bufio.ErrTooLong` and an empty sequence for `*filter`, while on the same lines
with the ignorable text removed it returns a nil error and the rule. -/
theorem loadRulesFile_long_blank_counterexample :
    stripIgnorable ["*filter", blankLine, "-A INPUT -j DROP", "COMMIT"]
      = ["*filter", "-A INPUT -j DROP", "COMMIT"] ∧
    loadRulesFile (File.readable ["*filter", blankLine, "-A INPUT -j DROP", "COMMIT"])
      = (some [("*filter", [])], some LoadError.tooLong) ∧
    loadRulesFile (File.readable
        (stripIgnorable ["*filter", blankLine, "-A INPUT -j DROP", "COMMIT"]))
      = (some [("*filter", ["-A INPUT -j DROP"])], none) := by
  have hstrip : stripIgnorable ["*filter", blankLine, "-A INPUT -j DROP", "COMMIT"]
      = ["*filter", "-A INPUT -j DROP", "COMMIT"] := by
    rw [stripIgnorable_cons, if_neg (by decide), stripIgnorable_cons,
      if_pos isSkippedLine_blankLine]
    decide
  refine ⟨hstrip, ?_, ?_⟩
  · have hscan : scanLines ["*filter", blankLine, "-A INPUT -j DROP", "COMMIT"]
        = ([dropCR "*filter"], true) := by
      rw [scanLines_cons_short _ _ (by decide), scanLines_cons_long _ _ blankLine_too_long]
    rw [loadRulesFile, hscan]
    decide
  · rw [hstrip]
    decide

/-- C17, amended: for a file that is read to its end and whose lines are all
shorter than `bufio.MaxScanTokenSize` (65536 bytes), the function returns the
same results, a nil error and the same map, when every line is trimmed and the
lines that are blank or start with `#` after trimming are deleted. -/
theorem loadRulesFile_stripIgnorable (lines : List String)
    (hshort : ∀ l ∈ lines, l.utf8ByteSize < MaxScanTokenSize) :
    loadRulesFile (File.readable (stripIgnorable lines))
      = loadRulesFile (File.readable lines) ∧
    (loadRulesFile (File.readable lines)).2 = none := by
  rw [loadRulesFile_of_short _ (short_stripIgnorable lines hshort),
    loadRulesFile_of_short _ hshort, (loadRules_stripIgnorable lines).1]
  exact ⟨rfl, rfl⟩

/-- Instance of the amended C17 on a dump with a comment, a blank line and
indentation. -/
theorem loadRulesFile_stripIgnorable_witness :
    stripIgnorable ["# dump", " *filter ", "", "\t-A INPUT -j DROP", "  # end", "COMMIT"]
      = ["*filter", "-A INPUT -j DROP", "COMMIT"] ∧
    loadRulesFile (File.readable ["*filter", "-A INPUT -j DROP", "COMMIT"])
      = loadRulesFile (File.readable
          ["# dump", " *filter ", "", "\t-A INPUT -j DROP", "  # end", "COMMIT"]) := by
  have h := (loadRulesFile_stripIgnorable
    ["# dump", " *filter ", "", "\t-A INPUT -j DROP", "  # end", "COMMIT"] (by decide)).1
  have e : stripIgnorable ["# dump", " *filter ", "", "\t-A INPUT -j DROP", "  # end", "COMMIT"]
      = ["*filter", "-A INPUT -j DROP", "COMMIT"] := by decide
  exact ⟨e, e ▸ h⟩

end IptablesDiffer
